import Mathlib

set_option maxRecDepth 100000

/-!
Verification of the Atlas document-extraction pipeline.

The pipeline (app/extraction) is embedded shallowly: Python strings are
lists of characters, Python lists are Lean lists, and each source function
is translated to a computable Lean function of the same shape.  Floating
point ratio comparisons in the source compare exact small fractions (for
example words-ratio against 0.3); they are modelled as exact cross
multiplied natural-number comparisons, which agree with the IEEE
comparisons at every reachable operand size.  Regular-expression splits
are implemented as deterministic scanners with the same semantics as the
patterns used by the source.
-/

namespace Atlas

/-- Python str modelled as a list of characters. -/
abbrev Str := List Char

/-- Byte strings (Python bytes) as lists of naturals below 256. -/
abbrev Bytes := List Nat

/-- Whitespace test used by str.split, str.strip and the regexes
(space, tab, carriage return, newline). -/
def isSpace (c : Char) : Bool := c.isWhitespace

/-- Python str.lstrip(). -/
def lstrip (s : Str) : Str := s.dropWhile isSpace

/-- Python str.rstrip(). -/
def rstrip (s : Str) : Str := (s.reverse.dropWhile isSpace).reverse

/-- Python str.strip(). -/
def strip (s : Str) : Str := lstrip (rstrip s)

/-- Python str.lower() (ASCII case folding; the pipeline only folds
ASCII text on the paths the claims touch). -/
def lower (s : Str) : Str := s.map Char.toLower

/-- Helper for pyWords: scans the string keeping the current word (reversed). -/
def wordsAux : Str → Str → List Str
  | [], acc => if acc = [] then [] else [acc.reverse]
  | c :: cs, acc =>
    if isSpace c then
      if acc = [] then wordsAux cs [] else acc.reverse :: wordsAux cs []
    else wordsAux cs (c :: acc)

/-- Python str.split() with no arguments: maximal runs of non-whitespace. -/
def pyWords (s : Str) : List Str := wordsAux s []

/-- len(s.split()). -/
def countWords (s : Str) : Nat := (pyWords s).length

/-- Join a list of strings with the given separator (sep.join(l)). -/
def joinSep (sep : Str) : List Str → Str
  | [] => []
  | [x] => x
  | x :: y :: xs => x ++ sep ++ joinSep sep (y :: xs)

/-- First-occurrence deduplication with an explicit seen accumulator
(the canonical behaviour of a Python set guarding an append loop). -/
def dedupFirstAux {α : Type} [DecidableEq α] : List α → List α → List α
  | [], _ => []
  | a :: l, seen =>
    if a ∈ seen then dedupFirstAux l seen else a :: dedupFirstAux l (a :: seen)

/-- Keep the first occurrence of every element, preserving order. -/
def dedupFirst {α : Type} [DecidableEq α] (l : List α) : List α := dedupFirstAux l []

/-- Number of distinct elements of a list (len(set(l))). -/
def distinctCount {α : Type} [DecidableEq α] (l : List α) : Nat := (dedupFirst l).length

/-- Split on a single character; pieces may be empty (str.split(sep)). -/
def splitCharAux (sep : Char) : Str → Str → List Str
  | [], acc => [acc.reverse]
  | c :: cs, acc =>
    if c = sep then acc.reverse :: splitCharAux sep cs []
    else splitCharAux sep cs (c :: acc)

def splitChar (sep : Char) (s : Str) : List Str := splitCharAux sep s []

/-- Python str.splitlines() modelled as splitting on the newline character
(the pipeline never feeds it other line terminators). -/
def splitLines (s : Str) : List Str := splitChar '\n' s

/-- Character membership test (c in s). -/
def hasChar (s : Str) (c : Char) : Bool := s.any (fun x => x == c)

/-- s.startswith(pre). -/
def startsWith (s pre : Str) : Bool := decide (s.take pre.length = pre)

/-- sub in s (substring containment), by scanning every start position. -/
def containsSub (s sub : Str) : Bool :=
  startsWith s sub ||
    match s with
    | [] => false
    | _ :: t => containsSub t sub

end Atlas

namespace Atlas

/-! SHA-256, as used by hashlib.sha256(...).hexdigest() in the source. -/

def pow32 : Nat := 4294967296

def add32 (a b : Nat) : Nat := (a + b) % pow32

def rotr32 (n x : Nat) : Nat := ((x >>> n) ||| (x <<< (32 - n))) % pow32

def shaK : List Nat :=
  [1116352408, 1899447441, 3049323471, 3921009573, 961987163, 1508970993,
   2453635748, 2870763221, 3624381080, 310598401, 607225278, 1426881987,
   1925078388, 2162078206, 2614888103, 3248222580, 3835390401, 4022224774,
   264347078, 604807628, 770255983, 1249150122, 1555081692, 1996064986,
   2554220882, 2821834349, 2952996808, 3210313671, 3336571891, 3584528711,
   113926993, 338241895, 666307205, 773529912, 1294757372, 1396182291,
   1695183700, 1986661051, 2177026350, 2456956037, 2730485921, 2820302411,
   3259730800, 3345764771, 3516065817, 3600352804, 4094571909, 275423344,
   430227734, 506948616, 659060556, 883997877, 958139571, 1322822218,
   1537002063, 1747873779, 1955562222, 2024104815, 2227730452, 2361852424,
   2428436474, 2756734187, 3204031479, 3329325298]

def shaH0 : List Nat :=
  [1779033703, 3144134277, 1013904242, 2773480762,
   1359893119, 2600822924, 528734635, 1541459225]

/-- Big-endian byte serialization of n into count bytes. -/
def beBytes (n count : Nat) : Bytes :=
  (List.range count).reverse.map (fun i => (n >>> (8 * i)) % 256)

/-- SHA-256 padding: 0x80, zeros to 56 mod 64, 8-byte big-endian bit length. -/
def padMessage (msg : Bytes) : Bytes :=
  let len := msg.length
  let zeros := (64 + 56 - (len + 1) % 64) % 64
  msg ++ [0x80] ++ List.replicate zeros 0 ++ beBytes (8 * len) 8

/-- Split into 64-byte chunks; the fuel argument (an upper bound on the
number of chunks) makes the recursion structural. -/
def chunks64Aux : Nat → Bytes → List Bytes
  | 0, _ => []
  | _, [] => []
  | fuel + 1, l@(_ :: _) => l.take 64 :: chunks64Aux fuel (l.drop 64)

def chunks64 (l : Bytes) : List Bytes := chunks64Aux l.length l

/-- Group a 64-byte chunk into 16 big-endian 32-bit words. -/
def wordsOfChunk : Bytes → List Nat
  | b0 :: b1 :: b2 :: b3 :: rest =>
    (((b0 * 256 + b1) * 256 + b2) * 256 + b3) :: wordsOfChunk rest
  | _ => []

def nextW (w : List Nat) : Nat :=
  let n := w.length
  let a := w.getD (n - 15) 0
  let s0 := (rotr32 7 a) ^^^ (rotr32 18 a) ^^^ (a >>> 3)
  let b := w.getD (n - 2) 0
  let s1 := (rotr32 17 b) ^^^ (rotr32 19 b) ^^^ (b >>> 10)
  (w.getD (n - 16) 0 + s0 + w.getD (n - 7) 0 + s1) % pow32

/-- Extend the 16 schedule words to 64. -/
def schedule (w16 : List Nat) : List Nat :=
  (List.range 48).foldl (fun w _ => w ++ [nextW w]) w16

def compressStep (st : List Nat) (kw : Nat × Nat) : List Nat :=
  match st with
  | [a, b, c, d, e, f, g, h] =>
    let s1 := (rotr32 6 e) ^^^ (rotr32 11 e) ^^^ (rotr32 25 e)
    let ch := (e &&& f) ^^^ ((pow32 - 1 - e) &&& g)
    let temp1 := (h + s1 + ch + kw.1 + kw.2) % pow32
    let s0 := (rotr32 2 a) ^^^ (rotr32 13 a) ^^^ (rotr32 22 a)
    let maj := (a &&& b) ^^^ (a &&& c) ^^^ (b &&& c)
    let temp2 := (s0 + maj) % pow32
    [add32 temp1 temp2, a, b, c, add32 d temp1, e, f, g]
  | st => st

def compressChunk (h : List Nat) (chunk : Bytes) : List Nat :=
  let w := schedule (wordsOfChunk chunk)
  let final := (shaK.zip w).foldl compressStep h
  List.zipWith add32 h final

def hexChar (n : Nat) : Char :=
  if n < 10 then Char.ofNat (48 + n) else Char.ofNat (87 + n)

def hex8 (n : Nat) : Str :=
  (List.range 8).reverse.map (fun i => hexChar ((n >>> (4 * i)) % 16))

/-- hashlib.sha256(msg).hexdigest(). -/
def sha256hex (msg : Bytes) : Str :=
  ((chunks64 (padMessage msg)).foldl compressChunk shaH0).flatMap hex8

/-- Python str.encode(utf-8). -/
def utf8Bytes (s : Str) : Bytes :=
  s.flatMap (fun c =>
    let n := c.toNat
    if n < 0x80 then [n]
    else if n < 0x800 then [0xC0 ||| (n >>> 6), 0x80 ||| (n % 64)]
    else if n < 0x10000 then
      [0xE0 ||| (n >>> 12), 0x80 ||| ((n >>> 6) % 64), 0x80 ||| (n % 64)]
    else
      [0xF0 ||| (n >>> 18), 0x80 ||| ((n >>> 12) % 64), 0x80 ||| ((n >>> 6) % 64), 0x80 ||| (n % 64)])

end Atlas

namespace Atlas

/-! Regex splitters used by semantic chunking. -/

/-- Number of newline characters in a string. -/
def nlCount (l : Str) : Nat := l.countP (fun c => c == '\n')

/-- Characters before the first newline. -/
def beforeFirstNl (l : Str) : Str := l.takeWhile (fun c => c != '\n')

/-- Characters after the last newline. -/
def afterLastNl (l : Str) : Str := (l.reverse.takeWhile (fun c => c != '\n')).reverse

/-- Scanner for re.split of the blank-line pattern (newline, any whitespace,
newline).  cur is the piece being built; buf is the pending whitespace run.
A maximal whitespace run containing at least two newlines is a separator
match: greedily it spans from its first newline to its last newline, so the
run prefix before the first newline stays on the left piece and the run
suffix after the last newline starts the right piece. -/
def splitParasAux : Str → Str → Str → List Str
  | [], cur, buf =>
    if 2 ≤ nlCount buf then [cur ++ beforeFirstNl buf, afterLastNl buf]
    else [cur ++ buf]
  | c :: cs, cur, buf =>
    if isSpace c then splitParasAux cs cur (buf ++ [c])
    else if 2 ≤ nlCount buf then
      (cur ++ beforeFirstNl buf) :: splitParasAux cs (afterLastNl buf ++ [c]) []
    else splitParasAux cs (cur ++ buf ++ [c]) []

/-- re.split of the blank-line pattern, as used to cut text into paragraphs. -/
def pySplitParas (s : Str) : List Str := splitParasAux s [] []

/-- True on sentence-final punctuation (the lookbehind class of the
sentence-split regex). -/
def isSentEnd (c : Char) : Bool := c == '.' || c == '!' || c == '?'

/-- Scanner for re.split of the sentence pattern (whitespace run preceded by
sentence-final punctuation).  When skipping, the scanner is inside the
separator whitespace run. -/
def splitSentsAux : Str → Str → Bool → List Str
  | [], cur, _ => [cur]
  | c :: cs, cur, skipping =>
    if skipping then
      if isSpace c then splitSentsAux cs cur true
      else splitSentsAux cs [c] false
    else
      if isSpace c && (match cur.getLast? with
                       | some p => isSentEnd p
                       | none => false) then
        cur :: splitSentsAux cs [] true
      else splitSentsAux cs (cur ++ [c]) false

/-- re.split of the sentence-boundary pattern. -/
def pySplitSents (s : Str) : List Str := splitSentsAux s [] false

end Atlas

namespace Atlas

/-! Data model (app/extraction/schemas.py).  uuid-typed identifiers are
modelled as opaque naturals; float-valued fields (font sizes, bounding
boxes) as exact rationals; optional fields as Option. -/

inductive ExtractionConfidence
  | high
  | medium
  | low
  deriving DecidableEq, Repr

inductive SectionType
  | text
  | table
  | figure
  deriving DecidableEq, Repr

inductive BlockType
  | text
  | table
  | figure
  deriving DecidableEq, Repr

structure Source where
  file_name : Str
  file_hash : Str
  upload_date : Str
  deriving DecidableEq, Repr

structure SectionSchema where
  section_id : Str
  file_id : Nat
  heading : Str
  section_type : SectionType
  content : Str
  keywords : List Str
  extraction_confidence : ExtractionConfidence
  embedding_vector : Option (List Rat)
  deriving DecidableEq, Repr

structure TechnicalContext where
  equipment : Option Str
  version : Option Str
  workflow : List Str
  deriving DecidableEq, Repr

structure DocumentSchema where
  file_id : Nat
  source : Source
  document_type : Option Str
  technical_context : TechnicalContext
  risk_level : Option Str
  audience : List Str
  state : Option Str
  effective_date : Option Str
  owner_team : Option Str
  sections : List Str
  deriving DecidableEq, Repr

structure Block where
  type : BlockType
  page : Int
  bbox : Option (Rat × Rat × Rat × Rat)
  content : Str
  caption : Option Str
  font_size : Option Rat
  is_bold : Bool
  deriving DecidableEq, Repr

structure Segment where
  heading : Str
  level : Nat
  section_type : SectionType
  content : Str
  page : Int
  caption : Option Str
  extraction_confidence : ExtractionConfidence
  deriving DecidableEq, Repr

end Atlas

namespace Atlas

/-! Stage 3: semantic chunking (app/extraction/semantic_chunking.py). -/

def MAX_WORDS_PER_SECTION : Nat := 600

def SOFT_MAX_WORDS : Nat := 300

def MIN_WORDS_SEMANTIC : Nat := 40

/-- looks_like_axis: the majority of non-blank lines have more than half
of their characters among bar and dash (both ratios modelled by exact
cross multiplication against one half). -/
def looks_like_axis (text : Str) : Bool :=
  let lines := ((splitLines text).map strip).filter (fun ln => ln ≠ [])
  if lines.length < 2 then false
  else
    let separator_heavy :=
      (lines.filter (fun ln =>
        2 * (ln.countP (fun c => c == '|' || c == '-')) > max ln.length 1)).length
    2 * separator_heavy > lines.length

/-- is_semantic: word count at least 40, unique-word fraction above 3/10,
and not axis-like.  The float comparison of the source
(unique_ratio <= 0.3) is the exact comparison 10u <= 3c at every
reachable operand size, modelled by cross multiplication. -/
def is_semantic (text : Str) : Bool :=
  let t := strip text
  if t = [] then false
  else
    let words := pyWords t
    let word_count := words.length
    if word_count < MIN_WORDS_SEMANTIC then false
    else if 10 * distinctCount (words.map lower) ≤ 3 * max word_count 1 then false
    else if looks_like_axis t then false
    else true

/-- The content hash: SHA-256 hex digest of the lower-cased,
whitespace-collapsed concatenation of heading, a space, and content. -/
def content_hash (heading content : Str) : Str :=
  let normalized := joinSep [' '] (pyWords (lower (heading ++ [' '] ++ content)))
  sha256hex (utf8Bytes normalized)

/-- Fresh section identifiers: uuid.uuid4() is modelled as an injective
fresh-id source indexed by the running section counter (the sec_index the
source threads through the same loop); no claim depends on id values. -/
def mkSectionId (n : Nat) : Str := (toString n).toList

/-- Loop body of _split_paragraph_by_sentences over the sentence pieces.
current holds already-packed (stripped, non-empty) sentences and
current_words their running word count. -/
def sbsGo (max_words : Nat) : List Str → List Str → Nat → List Str
  | [], current, _ =>
    if current = [] then [] else [joinSep [' '] current]
  | piece :: rest, current, current_words =>
    let sent := strip piece
    if sent = [] then sbsGo max_words rest current current_words
    else
      let w := countWords sent
      if current_words + w ≤ max_words then
        sbsGo max_words rest (current ++ [sent]) (current_words + w)
      else
        (if current = [] then [] else [joinSep [' '] current]) ++
          (if w ≤ max_words then sbsGo max_words rest [sent] w
           else sent :: sbsGo max_words rest [] 0)

/-- _split_paragraph_by_sentences.  The soft_max_words parameter is
accepted and unused, exactly as in the source. -/
def split_paragraph_by_sentences (paragraph : Str) (max_words soft_max_words : Nat) :
    List Str :=
  sbsGo max_words (pySplitSents paragraph) [] 0

/-- Loop body of _semantic_split over the paragraph pieces.  In the
source the two arms of the inner conditional (current_words at least
soft_max_words or current empty, versus the remaining case) perform the
same flush-and-continue steps; the translation keeps the conditional with
its two identical arms. -/
def ssGo (max_words soft_max_words : Nat) : List Str → List Str → Nat → List Str
  | [], current, _ =>
    if current = [] then [] else [joinSep ['\n', '\n'] current]
  | piece :: rest, current, current_words =>
    let para := strip piece
    if para = [] then ssGo max_words soft_max_words rest current current_words
    else
      let w := countWords para
      if current_words + w ≤ max_words then
        ssGo max_words soft_max_words rest (current ++ [para]) (current_words + w)
      else if soft_max_words ≤ current_words ∨ current = [] then
        (if current = [] then [] else [joinSep ['\n', '\n'] current]) ++
          (if w ≤ max_words then ssGo max_words soft_max_words rest [para] w
           else split_paragraph_by_sentences para max_words soft_max_words ++
                  ssGo max_words soft_max_words rest [] 0)
      else
        (if current = [] then [] else [joinSep ['\n', '\n'] current]) ++
          (if w ≤ max_words then ssGo max_words soft_max_words rest [para] w
           else split_paragraph_by_sentences para max_words soft_max_words ++
                  ssGo max_words soft_max_words rest [] 0)

/-- _semantic_split: split text at paragraph then sentence boundaries. -/
def semantic_split (text : Str) (max_words soft_max_words : Nat) : List Str :=
  ssGo max_words soft_max_words (pySplitParas text) [] 0

/-- The full text a text segment is chunked from: heading, blank line,
content, stripped (or just the content when the heading is empty). -/
def seg_full_text (seg : Segment) : Str :=
  let content := strip seg.content
  let heading := strip seg.heading
  if heading ≠ [] then strip (heading ++ '\n' :: '\n' :: content) else content

/-- The enumerate loop over the chunks of an over-long text segment:
only chunk 0 keeps the heading, and a chunk content starting with that
heading verbatim has the duplicate prefix stripped. -/
def buildChunkSections (fid : Nat) (heading : Str) (conf : ExtractionConfidence) :
    List Str → Nat → Nat → List SectionSchema × Nat
  | [], _, sec_index => ([], sec_index)
  | chunk_text :: rest, i, sec_index =>
    if is_semantic chunk_text then
      let chunk_heading := if i = 0 ∧ heading ≠ [] then heading else []
      let chunk_content :=
        if chunk_heading ≠ [] ∧ startsWith chunk_text chunk_heading then
          lstrip (chunk_text.drop chunk_heading.length)
        else chunk_text
      let s : SectionSchema :=
        { section_id := mkSectionId (sec_index + 1)
          file_id := fid
          heading := chunk_heading
          section_type := SectionType.text
          content := if chunk_content = [] then chunk_text else chunk_content
          keywords := []
          extraction_confidence := conf
          embedding_vector := none }
      let next := buildChunkSections fid heading conf rest (i + 1) (sec_index + 1)
      (s :: next.1, next.2)
    else buildChunkSections fid heading conf rest (i + 1) sec_index

/-- _split_text_segment. -/
def split_text_segment (seg : Segment) (fid : Nat)
    (max_words soft_max_words sec_index : Nat) : List SectionSchema × Nat :=
  let content := strip seg.content
  let heading := strip seg.heading
  if content = [] ∧ heading = [] then ([], sec_index)
  else
    let full_text := seg_full_text seg
    let word_count := countWords full_text
    if word_count ≤ max_words then
      if ¬ is_semantic full_text then ([], sec_index)
      else
        ([{ section_id := mkSectionId (sec_index + 1)
            file_id := fid
            heading := heading
            section_type := SectionType.text
            content := if content = [] then full_text else content
            keywords := []
            extraction_confidence := seg.extraction_confidence
            embedding_vector := none }], sec_index + 1)
    else
      buildChunkSections fid heading seg.extraction_confidence
        (semantic_split full_text max_words soft_max_words) 0 sec_index

/-- The table/figure arm of the chunking loop: at most one section,
content verbatim, gated by is_semantic on the raw content. -/
def tableFigureSections (seg : Segment) (fid : Nat) (sec_index : Nat) :
    List SectionSchema × Nat :=
  if ¬ is_semantic seg.content then ([], sec_index)
  else
    ([{ section_id := mkSectionId (sec_index + 1)
        file_id := fid
        heading := seg.heading
        section_type := seg.section_type
        content := seg.content
        keywords := []
        extraction_confidence := seg.extraction_confidence
        embedding_vector := none }], sec_index + 1)

/-- The candidate sections produced by the main loop of chunk_to_sections,
before deduplication. -/
def candidateSections (fid : Nat) (max_words soft_max_words : Nat) :
    List Segment → Nat → List SectionSchema
  | [], _ => []
  | seg :: rest, sec_index =>
    if seg.section_type = SectionType.table ∨ seg.section_type = SectionType.figure then
      let r := tableFigureSections seg fid sec_index
      r.1 ++ candidateSections fid max_words soft_max_words rest r.2
    else
      let r := split_text_segment seg fid max_words soft_max_words sec_index
      r.1 ++ candidateSections fid max_words soft_max_words rest r.2

/-- The final deduplication pass: a seen-set of content hashes, first
occurrence wins.  (The idx counter of the source loop is dead state and
is omitted.) -/
def dedupSections : List SectionSchema → List Str → List SectionSchema
  | [], _ => []
  | s :: rest, seen =>
    let h := content_hash s.heading s.content
    if h ∈ seen then dedupSections rest seen
    else s :: dedupSections rest (h :: seen)

/-- chunk_to_sections.  The source defaults max_words to 600 and
soft_max_words to 300; callers here pass them explicitly. -/
def chunk_to_sections (segments : List Segment) (file_id : Nat) (source : Source)
    (max_words soft_max_words : Nat) : DocumentSchema × List SectionSchema :=
  let sections := candidateSections file_id max_words soft_max_words segments 0
  let result := dedupSections sections []
  let doc : DocumentSchema :=
    { file_id := file_id
      source := source
      document_type := none
      technical_context := { equipment := none, version := none, workflow := [] }
      risk_level := none
      audience := []
      state := none
      effective_date := none
      owner_team := none
      sections := result.map (fun s => s.section_id) }
  (doc, result)

end Atlas

namespace Atlas

/-! Block cleaning (app/extraction/block_cleaner.py). -/

/-- The effective text of a block: content plus caption for figures,
content otherwise, stripped. -/
def block_text (b : Block) : Str :=
  if b.type = BlockType.figure then strip (b.content ++ ' ' :: (b.caption.getD []))
  else strip b.content

/-- Lower-cased, whitespace-collapsed text key used by the near-duplicate
filter. -/
def normalize_for_dedup (t : Str) : Str :=
  if t = [] then [] else joinSep [' '] (pyWords (lower t))

/-- The (normalized text, block type) pair a block contributes to the
page-count table. -/
def dedup_key (b : Block) : Str × BlockType := (normalize_for_dedup (block_text b), b.type)

/-- Number of distinct pages on which some block carries the given key
(the defaultdict-of-set accumulation of the source). -/
def distinct_pages (blocks : List Block) (key : Str × BlockType) : Nat :=
  distinctCount ((blocks.filter (fun b => dedup_key b = key)).map (fun b => b.page))

/-- A key is repeated when it occurs on at least 3 distinct pages. -/
def is_repeated_key (blocks : List Block) (key : Str × BlockType) : Bool :=
  3 ≤ distinct_pages blocks key

/-- Anchored match of the bare page-number pattern (whitespace, digits,
whitespace). -/
def matchPageNumber (t : Str) : Bool :=
  let t1 := t.dropWhile isSpace
  let ds := t1.takeWhile Char.isDigit
  ds ≠ [] && (t1.dropWhile Char.isDigit).all isSpace

/-- Anchored match of the page-range pattern (digits, bar or slash,
digits, with optional whitespace). -/
def matchPageRange (t : Str) : Bool :=
  let t1 := t.dropWhile isSpace
  let d1 := t1.takeWhile Char.isDigit
  let r1 := (t1.dropWhile Char.isDigit).dropWhile isSpace
  match r1 with
  | c :: r2 =>
    if c = '|' ∨ c = '/' then
      let r3 := r2.dropWhile isSpace
      let d2 := r3.takeWhile Char.isDigit
      d1 ≠ [] && d2 ≠ [] && (r3.dropWhile Char.isDigit).all isSpace
    else false
  | [] => false

/-- Case-insensitive search for the copyright markers.  The source folds
case with full Unicode lower; ASCII folding plus both case variants of the
copyright-symbol byte pair covers the same matches. -/
def matchesCopyright (t : Str) : Bool :=
  let lt := lower t
  containsSub lt ("Â©".toList) || containsSub lt ("â©".toList) ||
    containsSub lt ("copyright".toList) || containsSub lt ("all rights reserved".toList) ||
    containsSub lt ("not for use in diagnostic".toList)

/-- The keep conditions of the cleaning loop, with the repeated-key test
supplied as a predicate.  Ratio thresholds 0.6, 0.2 and 0.3 are modelled
by exact cross multiplication. -/
def keep_block (repeated : Str × BlockType → Bool) (b : Block) : Bool :=
  let text := block_text b
  let norm := normalize_for_dedup text
  if text.length < 20 then false
  else if 5 * (text.countP (fun c => c.isAlphanum || isSpace c)) < 3 * text.length then false
  else if (if b.type = BlockType.text then
             match b.bbox with
             | some (x0, top, x1, bottom) =>
               decide (0 < x1 - x0 ∧ 2 * (x1 - x0) < bottom - top)
             | none => false
           else false) then false
  else if repeated (norm, b.type) then false
  else if matchPageNumber text || matchPageRange text then false
  else if containsSub (lower text) ("for research use only".toList) then false
  else if matchesCopyright text then false
  else if 0 < text.length ∧ 5 * distinctCount text < text.length then false
  else if 0 < text.length ∧ 3 * text.length <
      10 * (text.countP (fun c => c == '|' || c == '-')) then false
  else true

/-- clean_blocks: the order-preserving filter of the source loop. -/
def clean_blocks (blocks : List Block) : List Block :=
  if blocks = [] then []
  else blocks.filter (keep_block (fun k => is_repeated_key blocks k))

end Atlas

namespace Atlas

/-! Stage 2: structural segmentation
(app/extraction/structural_segmentation.py). -/

/-- Deterministic scanner equivalent to the numbered-prefix group pattern
(digit runs each optionally followed by a dot, repeated); returns the
rest of the string after the groups. -/
def numGroupsAux : Nat → Str → Option Str
  | 0, _ => none
  | fuel + 1, s =>
    let ds := s.takeWhile Char.isDigit
    if ds = [] then none
    else
      match s.dropWhile Char.isDigit with
      | '.' :: r2 =>
        if r2.takeWhile Char.isDigit ≠ [] then numGroupsAux fuel r2 else some r2
      | r1 => some r1

/-- Anchored match of the numbered-heading pattern: whitespace, digit
groups, at least one whitespace, then a non-whitespace character. -/
def looks_numbered (text : Str) : Bool :=
  let t1 := text.dropWhile isSpace
  match numGroupsAux (t1.length + 1) t1 with
  | none => false
  | some rest => rest.takeWhile isSpace ≠ [] && rest.dropWhile isSpace ≠ []

/-- _classify_heading: (level, is_heading, confidence). -/
def classify_heading (b : Block) (body_size : Option Rat)
    (font_h1 font_h2 font_h3 font_h4 : Rat) : Nat × Bool × ExtractionConfidence :=
  if b.type ≠ BlockType.text then (1, false, ExtractionConfidence.high)
  else
    let text := strip b.content
    if text = [] then (1, false, ExtractionConfidence.high)
    else
      let is_bold := b.is_bold
      let is_short := decide (text.length < 100) && ! hasChar text '\n'
      let numbered := looks_numbered text
      match b.font_size with
      | some size =>
        if font_h1 ≤ size then (1, true, ExtractionConfidence.high)
        else if font_h2 ≤ size then (2, true, ExtractionConfidence.high)
        else if font_h3 ≤ size then (3, true, ExtractionConfidence.high)
        else if font_h4 ≤ size ∧ (is_bold ∨ numbered) then (4, true, ExtractionConfidence.high)
        else
          match body_size with
          | some bs =>
            if bs < size ∧ (is_bold ∨ numbered) then
              (if bs + 4 < size then 2 else 3, true, ExtractionConfidence.medium)
            else (1, false, ExtractionConfidence.high)
          | none => (1, false, ExtractionConfidence.high)
      | none =>
        if (is_bold ∧ is_short) ∨ numbered then
          (if is_bold then 2 else 3, true, ExtractionConfidence.low)
        else (1, false, ExtractionConfidence.high)

/-- Round half to even (Python round) on exact rationals. -/
def roundHalfEven (q : Rat) : Int :=
  let f := ⌊q⌋
  let frac := q - f
  if frac < 1 / 2 then f
  else if 1 / 2 < frac then f + 1
  else if f % 2 = 0 then f else f + 1

/-- round(x, 1). -/
def round1 (q : Rat) : Rat := (roundHalfEven (q * 10) : Rat) / 10

/-- _infer_body_font_size: the most frequent rounded size; Python max over
dict keys returns the first key (in insertion order) attaining the
maximal count. -/
def infer_body_font_size (sizes : List Rat) : Option Rat :=
  (dedupFirst sizes).foldl
    (fun best k =>
      match best with
      | none => some k
      | some b => if sizes.count b < sizes.count k then some k else best)
    none

def min_confidence (a b : ExtractionConfidence) : ExtractionConfidence :=
  match a, b with
  | ExtractionConfidence.low, _ => ExtractionConfidence.low
  | _, ExtractionConfidence.low => ExtractionConfidence.low
  | ExtractionConfidence.medium, _ => ExtractionConfidence.medium
  | _, ExtractionConfidence.medium => ExtractionConfidence.medium
  | _, _ => ExtractionConfidence.high

/-- Search (anywhere in the string) for a given word followed by at
least one whitespace character and a digit. -/
def hasCaptionWord (word : Str) : Str → Bool
  | [] => false
  | s@(_ :: rest) =>
    (startsWith s word &&
      (let r := s.drop word.length
       r.takeWhile isSpace ≠ [] &&
         (match r.dropWhile isSpace with
          | d :: _ => d.isDigit
          | [] => false))) ||
      hasCaptionWord word rest

/-- Search for the figure-caption pattern (the word figure, whitespace,
a digit) case-insensitively. -/
def hasFigureNumber (content : Str) : Bool :=
  hasCaptionWord ("figure".toList) (lower content)

/-- Search for the table-caption pattern likewise. -/
def hasTableNumber (content : Str) : Bool :=
  hasCaptionWord ("table".toList) (lower content)

/-- Truthiness of block.caption with a non-blank strip. -/
def captionNonBlank (b : Block) : Bool :=
  match b.caption with
  | some c => decide (strip c ≠ [])
  | none => false

def has_valid_figure_caption (b : Block) : Bool :=
  captionNonBlank b || hasFigureNumber b.content

def has_valid_table_caption (b : Block) : Bool :=
  if captionNonBlank b then true
  else if hasTableNumber b.content then true
  else
    let content := strip b.content
    if content = [] then false
    else
      let first_line := strip (content.takeWhile (fun c => c != '\n'))
      if first_line = [] ∨ 200 < first_line.length then false
      else
        let sep_count := first_line.countP (fun c => c == '|' || c == '-')
        if max first_line.length 1 < 2 * sep_count then false
        else true

def table_confidence (b : Block) : ExtractionConfidence :=
  if strip b.content ≠ [] then ExtractionConfidence.high else ExtractionConfidence.medium

def figure_confidence (b : Block) : ExtractionConfidence :=
  match b.caption with
  | some c => if c ≠ [] then ExtractionConfidence.high else ExtractionConfidence.medium
  | none => ExtractionConfidence.medium

/-- The heading-body absorption loop: gathers following non-heading text
blocks, tracking the minimum confidence, and returns the remaining
blocks. -/
def absorbBody (body_size : Option Rat) (f1 f2 f3 f4 : Rat) :
    List Block → ExtractionConfidence → List Str × ExtractionConfidence × List Block
  | [], conf => ([], conf, [])
  | b :: rest, conf =>
    if b.type ≠ BlockType.text then ([], conf, b :: rest)
    else
      let r := classify_heading b body_size f1 f2 f3 f4
      if r.2.1 then ([], conf, b :: rest)
      else
        let next := absorbBody body_size f1 f2 f3 f4 rest (min_confidence conf r.2.2)
        (strip b.content :: next.1, next.2)

/-- The main segmentation loop; fuel bounds the number of emitted
segments (one block is consumed per iteration, so the block count
suffices). -/
def segmentGo (body_size : Option Rat) (f1 f2 f3 f4 : Rat) :
    Nat → List Block → List Segment
  | 0, _ => []
  | _, [] => []
  | fuel + 1, b :: rest =>
    if b.type = BlockType.table then
      if ¬ has_valid_table_caption b then segmentGo body_size f1 f2 f3 f4 fuel rest
      else
        { heading := [], level := 1, section_type := SectionType.table,
          content := b.content, page := b.page, caption := b.caption,
          extraction_confidence := table_confidence b } ::
          segmentGo body_size f1 f2 f3 f4 fuel rest
    else if b.type = BlockType.figure then
      if ¬ has_valid_figure_caption b then segmentGo body_size f1 f2 f3 f4 fuel rest
      else
        { heading := (match b.caption with
                      | some c => if c ≠ [] then c else ("Figure".toList)
                      | none => ("Figure".toList))
          level := 1, section_type := SectionType.figure,
          content := if b.content ≠ [] then b.content
                     else (match b.caption with
                           | some c => c
                           | none => [])
          page := b.page, caption := b.caption,
          extraction_confidence := figure_confidence b } ::
          segmentGo body_size f1 f2 f3 f4 fuel rest
    else
      let r := classify_heading b body_size f1 f2 f3 f4
      if r.2.1 ∧ strip b.content ≠ [] then
        let heading_text := strip b.content
        let a := absorbBody body_size f1 f2 f3 f4 rest r.2.2
        let content := joinSep ['\n', '\n'] (a.1.filter (fun p => p ≠ []))
        { heading := heading_text, level := r.1, section_type := SectionType.text,
          content := if content = [] then heading_text else content,
          page := b.page, caption := none, extraction_confidence := a.2.1 } ::
          segmentGo body_size f1 f2 f3 f4 fuel a.2.2
      else
        { heading := [], level := 1, section_type := SectionType.text,
          content := strip b.content, page := b.page, caption := none,
          extraction_confidence := r.2.2 } ::
          segmentGo body_size f1 f2 f3 f4 fuel rest

/-- segment_document with the font-size thresholds (defaults 18, 14, 12,
10 for H1 to H4). -/
def segment_document (blocks : List Block) (f1 f2 f3 f4 : Rat) : List Segment :=
  if blocks = [] then []
  else
    let sizes := (blocks.filter (fun b => b.type = BlockType.text)).filterMap
        (fun b => b.font_size.map round1)
    let body_size := infer_body_font_size sizes
    segmentGo body_size f1 f2 f3 f4 blocks.length blocks

end Atlas

namespace Atlas

/-! Keyword extraction (app/extraction/keywords.py). -/

/-- _normalize: strip, then truncate to 80 characters. -/
def kw_normalize (s : Str) : Str :=
  let s := strip s
  if s = [] then [] else s.take 80

/-- Extend a token across hyphen-joined alphanumeric runs (the optional
repeated group of the token pattern). -/
def tokenExtend : Nat → Str → Str → Str × Str
  | 0, tok, rest => (tok, rest)
  | fuel + 1, tok, rest =>
    match rest with
    | '-' :: r =>
      let run := r.takeWhile Char.isAlphanum
      if run = [] then (tok, rest)
      else tokenExtend fuel (tok ++ '-' :: run) (r.dropWhile Char.isAlphanum)
    | _ => (tok, rest)

/-- findall of the token pattern: alphanumeric runs optionally joined by
single hyphens. -/
def tokenScan : Nat → Str → List Str
  | 0, _ => []
  | _, [] => []
  | fuel + 1, c :: cs =>
    if c.isAlphanum then
      let run := (c :: cs).takeWhile Char.isAlphanum
      let rest0 := (c :: cs).dropWhile Char.isAlphanum
      let tr := tokenExtend rest0.length run rest0
      tr.1 :: tokenScan fuel tr.2
    else tokenScan fuel cs

/-- _tokenize_heading: tokens of length at least 2, or purely numeric. -/
def tokenize_heading (heading : Str) : List Str :=
  let h := strip heading
  if h = [] then []
  else (tokenScan h.length h).filter
    (fun t => 2 ≤ t.length ∨ (t ≠ [] ∧ t.all Char.isDigit))

/-- The candidate stream fed to the add closure, in source order: heading
tokens, table-header cells, bold-phrase tokens.  Splitting the header row
on the bar regex and stripping each cell equals splitting on the bar
character and stripping. -/
def kw_candidates (sec : SectionSchema) (bold_phrases : Option (List Str))
    (table_header_row : Option Str) : List Str :=
  (if strip sec.heading ≠ [] then tokenize_heading sec.heading else []) ++
    (match table_header_row with
     | some row =>
       if sec.section_type = SectionType.table ∧ row ≠ [] then
         (splitChar '|' row).map strip
       else []
     | none => []) ++
    (match bold_phrases with
     | some ps => ps.flatMap tokenize_heading
     | none => [])

/-- The add closure folded over the candidates: normalize, then append
when non-empty, unseen, and longer than one character. -/
def kwFold : List Str → List Str → List Str → List Str × List Str
  | [], seen, keywords => (seen, keywords)
  | cand :: rest, seen, keywords =>
    let c := kw_normalize cand
    if c ≠ [] ∧ c ∉ seen ∧ 1 < c.length then kwFold rest (c :: seen) (keywords ++ [c])
    else kwFold rest seen keywords

/-- extract_keywords_from_section: the fold capped at 50 entries. -/
def extract_keywords_from_section (sec : SectionSchema)
    (bold_phrases : Option (List Str)) (table_header_row : Option Str) : List Str :=
  (kwFold (kw_candidates sec bold_phrases table_header_row) [] []).2.take 50

/-- extract_keywords_for_sections; the per-section dicts are modelled as
lookup functions from section id. -/
def extract_keywords_for_sections (sections : List SectionSchema)
    (section_bold_phrases : Str → Option (List Str))
    (section_table_headers : Str → Option Str) : List SectionSchema :=
  sections.map (fun sec =>
    { sec with
      keywords := extract_keywords_from_section sec
        (section_bold_phrases sec.section_id) (section_table_headers sec.section_id) })

end Atlas

namespace Atlas

/-! Stage 1 entry (app/extraction/layout_extraction.py).  The pypdf and
pdfplumber extractors are third-party parsers; they enter here as
function parameters, with an availability flag for the optional pypdf
import. -/

def extract_layout_from_bytes
    (pypdf_extract pdfplumber_extract : Bytes → List Block)
    (pypdf_available : Bool) (content : Bytes) (use_pypdf : Bool) : List Block :=
  if content = [] ∨ content.length < 100 then []
  else if use_pypdf ∧ pypdf_available then
    let blocks := pypdf_extract content
    if blocks ≠ [] then blocks else pdfplumber_extract content
  else pdfplumber_extract content

end Atlas

namespace Atlas

/-! Pipeline orchestration (app/extraction/pipeline.py). -/

inductive ExtractError
  | unsupportedType (message : Str)
  deriving DecidableEq, Repr

def PDF_CONTENT_TYPES : List Str := [("application/pdf".toList)]

def PDF_EXTENSIONS : List Str := [(".pdf".toList)]

/-- _is_pdf: the base content type (before any semicolon parameters)
matches, or the lower-cased filename extension after the last dot
matches. -/
def is_pdf (content_type file_name : Str) : Bool :=
  let base_type := lower (strip (content_type.takeWhile (fun c => c != ';')))
  if base_type ∈ PDF_CONTENT_TYPES then true
  else
    let ext :=
      if hasChar file_name '.' then
        '.' :: lower ((file_name.reverse.takeWhile (fun c => c != '.')).reverse)
      else []
    ext ∈ PDF_EXTENSIONS

/-- _normalize_content: collapse every whitespace run to one space and
trim. -/
def normalize_content (t : Str) : Str :=
  if t = [] then t else joinSep [' '] (pyWords t)

/-- extract_document.  The third-party layout extractors and the
wall-clock timestamp are parameters; the rest is the source pipeline:
type gate, SHA-256 content hash, layout extraction, optional block
cleaning, segmentation, chunking, whitespace normalization, keyword
extraction. -/
def extract_document
    (pypdf_extract pdfplumber_extract : Bytes → List Block) (pypdf_available : Bool)
    (now_utc : Str) (content : Bytes) (file_name content_type : Str) (file_id : Nat)
    (apply_block_cleaning include_keywords : Bool) :
    Except ExtractError (DocumentSchema × List SectionSchema) :=
  if ¬ is_pdf content_type file_name then
    Except.error (ExtractError.unsupportedType
      (("Unsupported type for extraction: ".toList) ++ content_type ++
        (" / ".toList) ++ file_name))
  else
    let file_hash := sha256hex content
    let source : Source :=
      { file_name := file_name, file_hash := file_hash, upload_date := now_utc }
    let blocks := extract_layout_from_bytes pypdf_extract pdfplumber_extract
      pypdf_available content true
    let blocks := if apply_block_cleaning then clean_blocks blocks else blocks
    let segments := segment_document blocks 18 14 12 10
    let dr := chunk_to_sections segments file_id source
      MAX_WORDS_PER_SECTION SOFT_MAX_WORDS
    let sections := dr.2.map (fun s => { s with content := normalize_content s.content })
    let sections :=
      if include_keywords then
        extract_keywords_for_sections sections (fun _ => none) (fun _ => none)
      else sections
    Except.ok (dr.1, sections)

end Atlas

namespace Atlas

/-! Definitions written from the claims themselves (for refutation and
refinement), and the concrete fixtures used by witnesses and
counterexamples. -/

/-- The semantic-validity test as claim C3 words it for table and figure
sections: exempt from the 40-word floor, but still subject to the
unique-word-ratio and the not-axis-like checks. -/
def claim_semantic_exempt (text : Str) : Bool :=
  let t := strip text
  if t = [] then false
  else
    let words := pyWords t
    if 10 * distinctCount (words.map lower) ≤ 3 * max words.length 1 then false
    else if looks_like_axis t then false
    else true

/-- The no-font-size fallback as claim C5 words it: a low-confidence
heading at level 2 if the block is bold and short, or at level 3 if it
has a numbered prefix. -/
def claim_fallback_level (is_bold is_short numbered : Bool) : Nat :=
  if is_bold && is_short then 2 else if numbered then 3 else 0

/-- The heading decision table of claim C5, amended only in the
no-font-size fallback: there the block is a low-confidence heading when
(bold and short) or numbered, at level 2 when bold and at level 3
otherwise. -/
def spec_classify_heading (b : Block) (body_size : Option Rat) :
    Nat × Bool × ExtractionConfidence :=
  if b.type ≠ BlockType.text then (1, false, ExtractionConfidence.high)
  else
    let text := strip b.content
    if text = [] then (1, false, ExtractionConfidence.high)
    else
      let bold := b.is_bold
      let short := decide (text.length < 100) && ! hasChar text '\n'
      let numbered := looks_numbered text
      match b.font_size with
      | some size =>
        if 18 ≤ size then (1, true, ExtractionConfidence.high)
        else if 14 ≤ size then (2, true, ExtractionConfidence.high)
        else if 12 ≤ size then (3, true, ExtractionConfidence.high)
        else if 10 ≤ size ∧ (bold ∨ numbered) then (4, true, ExtractionConfidence.high)
        else
          match body_size with
          | some bs =>
            if bs < size ∧ (bold ∨ numbered) then
              (if bs + 4 < size then 2 else 3, true, ExtractionConfidence.medium)
            else (1, false, ExtractionConfidence.high)
          | none => (1, false, ExtractionConfidence.high)
      | none =>
        if (bold ∧ short) ∨ numbered then
          (if bold then 2 else 3, true, ExtractionConfidence.low)
        else (1, false, ExtractionConfidence.high)

/-- A 45-word text with all-distinct words: passes is_semantic. -/
def fortyFiveWords : Str :=
  ("alpha bravo charlie delta echo foxtrot golf hotel india juliet kilo lima mike november oscar papa quebec romeo sierra tango uniform victor whiskey xray yankee zulu one two three four five six seven eight nine ten eleven twelve thirteen fourteen fifteen sixteen seventeen eighteen nineteen".toList)

/-- Ten distinct words: below the 40-word semantic floor, full unique
ratio, single line. -/
def tenWords : Str :=
  ("alpha beta gamma delta epsilon zeta eta theta iota kappa".toList)

def srcW : Source :=
  { file_name := ("doc.pdf".toList), file_hash := [], upload_date := [] }

/-- A text segment carrying the 45 distinct words. -/
def textSegW : Segment :=
  { heading := ("Head".toList), level := 1, section_type := SectionType.text,
    content := fortyFiveWords, page := 1, caption := none,
    extraction_confidence := ExtractionConfidence.high }

/-- A table segment whose content is below the 40-word floor but passes
the uniqueness and axis checks. -/
def tableSegX : Segment :=
  { heading := [], level := 1, section_type := SectionType.table,
    content := tenWords, page := 1, caption := none,
    extraction_confidence := ExtractionConfidence.high }

/-- A table segment carrying semantically valid content. -/
def tableSegW : Segment :=
  { heading := [], level := 1, section_type := SectionType.table,
    content := fortyFiveWords, page := 1, caption := none,
    extraction_confidence := ExtractionConfidence.high }

/-- A bold text block with no font size, a numbered prefix, and a long
single-line body (not short). -/
def boldNumberedLongBlock : Block :=
  { type := BlockType.text, page := 1, bbox := none
    content := ("1. aaaaaaaaaa bbbbbbbbbb cccccccccc dddddddddd eeeeeeeeee ffffffffff gggggggggg hhhhhhhhhh iiiiiiiiii jjjjjjjjjj".toList)
    caption := none, font_size := none, is_bold := true }

/-- A section whose heading repeats one word in two cases. -/
def fooSectionX : SectionSchema :=
  { section_id := ("1".toList), file_id := 0, heading := ("Foo foo".toList),
    section_type := SectionType.text, content := [], keywords := [],
    extraction_confidence := ExtractionConfidence.high, embedding_vector := none }

/-- A block whose text is under 20 characters, on a single page. -/
def shortBlockX : Block :=
  { type := BlockType.text, page := 1, bbox := none, content := ("hi".toList),
    caption := none, font_size := none, is_bold := false }

/-- The same running-header block on three distinct pages. -/
def headerBlock (pg : Int) : Block :=
  { type := BlockType.text, page := pg, bbox := none,
    content := ("Running header text line".toList), caption := none,
    font_size := none, is_bold := false }

def headerBlocksW : List Block := [headerBlock 1, headerBlock 2, headerBlock 3]

/-- A section used by the keyword frame witness. -/
def kwSectionW : SectionSchema :=
  { section_id := ("sec-1".toList), file_id := 3, heading := ("Alpha Beta".toList),
    section_type := SectionType.text, content := ("body".toList), keywords := [],
    extraction_confidence := ExtractionConfidence.medium, embedding_vector := none }

/-- The single section chunk_to_sections produces for [textSegW]. -/
def c1SectionW : SectionSchema :=
  { section_id := ("1".toList), file_id := 7, heading := ("Head".toList),
    section_type := SectionType.text, content := fortyFiveWords, keywords := [],
    extraction_confidence := ExtractionConfidence.high, embedding_vector := none }

/-- A keyword candidate is kept by the folding filter when non-empty and
longer than one character. -/
def goodKw (c : Str) : Bool := decide (c ≠ [] ∧ 1 < c.length)

/-- The deduplication hash of a section. -/
def hashOf (s : SectionSchema) : Str := content_hash s.heading s.content

/-- A string ends in a non-whitespace character. -/
def endsNonWs (u : Str) : Prop := ∃ u0 c, u = u0 ++ [c] ∧ isSpace c = false

end Atlas

namespace Atlas

/-! General lemmas. -/

theorem splitCharAux_of_not_mem (sep : Char) (s : Str) :
    ∀ acc : Str, sep ∉ s → splitCharAux sep s acc = [acc.reverse ++ s] := by
  induction s with
  | nil => intro acc _; simp [splitCharAux]
  | cons c cs ih =>
    intro acc h
    have hc : ¬ c = sep := by
      intro e
      exact h (e ▸ List.mem_cons_self c cs)
    have hcs : sep ∉ cs := fun m => h (List.mem_cons_of_mem c m)
    simp [splitCharAux, hc, ih (c :: acc) hcs]

theorem not_mem_of_hasChar_eq_false {s : Str} {c : Char}
    (h : hasChar s c = false) : c ∉ s := by
  intro hm
  have : s.any (fun x => x == c) = true := List.any_eq_true.mpr ⟨c, hm, by simp⟩
  rw [hasChar] at h
  rw [this] at h
  exact Bool.true_eq_false.mp h

/-- C10, part one packaged as a lemma on the line count. -/
theorem looks_like_axis_of_lines_lt_two (text : Str)
    (h : ((((splitLines text).map strip).filter (fun ln => ln ≠ [])).length < 2)) :
    looks_like_axis text = false := by
  simp only [looks_like_axis]
  rw [if_pos h]

end Atlas

namespace Atlas

/-! Claim C10. -/

/-- C10: looks_like_axis returns false for every text with fewer than two
non-blank lines; consequently a single-line text (one with no newline
character) is never rejected as axis-like, regardless of its bar and dash
characters. -/
theorem c10_few_lines_not_axis (text : Str) :
    (((((splitLines text).map strip).filter (fun ln => ln ≠ [])).length < 2) →
        looks_like_axis text = false) ∧
      (hasChar text '\n' = false → looks_like_axis text = false) := by
  constructor
  · exact looks_like_axis_of_lines_lt_two text
  · intro h
    apply looks_like_axis_of_lines_lt_two
    have hnm : '\n' ∉ text := not_mem_of_hasChar_eq_false h
    have hsl : splitLines text = [text] := by
      simpa [splitChar] using splitCharAux_of_not_mem '\n' text [] hnm
    rw [hsl]
    simp only [List.map]
    by_cases hs : strip text = [] <;> simp [hs]

/-- Witness for C10: a single line made of bars and dashes is not
axis-like. -/
theorem c10_witness :
    hasChar ("|||---|||".toList) '\n' = false ∧
      looks_like_axis ("|||---|||".toList) = false :=
  ⟨by decide, (c10_few_lines_not_axis ("|||---|||".toList)).2 (by decide)⟩

end Atlas

namespace Atlas

/-! Claim C8. -/

/-- C8: for every byte string shorter than 100 bytes, layout extraction
returns the empty block list (a total function: no error), for any
third-party extractors and availability. -/
theorem c8_small_input_empty_blocks
    (pypdf_extract pdfplumber_extract : Bytes → List Block)
    (pypdf_available : Bool) (content : Bytes) (use_pypdf : Bool)
    (h : content.length < 100) :
    extract_layout_from_bytes pypdf_extract pdfplumber_extract pypdf_available
      content use_pypdf = [] := by
  unfold extract_layout_from_bytes
  rw [if_pos (Or.inr h)]

/-- Witness for C8: the empty byte string yields the empty block list
even when the extractors would return blocks. -/
theorem c8_witness :
    ([] : Bytes).length < 100 ∧
      extract_layout_from_bytes (fun _ => [shortBlockX]) (fun _ => [shortBlockX])
        true [] true = [] :=
  ⟨by decide,
    c8_small_input_empty_blocks (fun _ => [shortBlockX]) (fun _ => [shortBlockX])
      true [] true (by decide)⟩

end Atlas

namespace Atlas

/-! Claim C4. -/

/-- C4: extract_document returns the unsupported-type error (and hence no
partial result) exactly when neither the base content type nor the
filename extension identifies a PDF. -/
theorem c4_unsupported_type_iff
    (pypdf_extract pdfplumber_extract : Bytes → List Block) (pypdf_available : Bool)
    (now_utc : Str) (content : Bytes) (file_name content_type : Str) (file_id : Nat)
    (apply_block_cleaning include_keywords : Bool) :
    (∃ e, extract_document pypdf_extract pdfplumber_extract pypdf_available now_utc
        content file_name content_type file_id apply_block_cleaning include_keywords =
      Except.error e) ↔ is_pdf content_type file_name = false := by
  unfold extract_document
  by_cases h : is_pdf content_type file_name
  · simp [h]
  · simp only [h, Bool.not_eq_true, eq_self_iff_true, iff_true]
    rw [if_pos]
    · exact ⟨_, rfl⟩
    · simp [h]

/-- Witness for C4, the scenario of the spec: bytes of a non-PDF with
content type text/plain and filename x.txt produce the unsupported-type
error. -/
theorem c4_witness :
    is_pdf ("text/plain".toList) ("x.txt".toList) = false ∧
      ∃ e, extract_document (fun _ => []) (fun _ => []) true []
        (utf8Bytes ("not a pdf".toList)) ("x.txt".toList) ("text/plain".toList) 0
        false true = Except.error e :=
  ⟨by decide,
    (c4_unsupported_type_iff (fun _ => []) (fun _ => []) true []
      (utf8Bytes ("not a pdf".toList)) ("x.txt".toList) ("text/plain".toList) 0
      false true).mpr (by decide)⟩

end Atlas

namespace Atlas

/-! Claim C9. -/

/-- C9: keyword batch extraction returns a list of the same length and
order in which every output section agrees with the corresponding input
section on every field except keywords. -/
theorem c9_keywords_frame_effect (sections : List SectionSchema)
    (bp : Str → Option (List Str)) (th : Str → Option Str) :
    (extract_keywords_for_sections sections bp th).length = sections.length ∧
      ∀ n (h1 : n < (extract_keywords_for_sections sections bp th).length)
        (h2 : n < sections.length),
        ((extract_keywords_for_sections sections bp th).get ⟨n, h1⟩).section_id =
            (sections.get ⟨n, h2⟩).section_id ∧
          ((extract_keywords_for_sections sections bp th).get ⟨n, h1⟩).file_id =
            (sections.get ⟨n, h2⟩).file_id ∧
          ((extract_keywords_for_sections sections bp th).get ⟨n, h1⟩).heading =
            (sections.get ⟨n, h2⟩).heading ∧
          ((extract_keywords_for_sections sections bp th).get ⟨n, h1⟩).section_type =
            (sections.get ⟨n, h2⟩).section_type ∧
          ((extract_keywords_for_sections sections bp th).get ⟨n, h1⟩).content =
            (sections.get ⟨n, h2⟩).content ∧
          ((extract_keywords_for_sections sections bp th).get ⟨n, h1⟩).extraction_confidence =
            (sections.get ⟨n, h2⟩).extraction_confidence ∧
          ((extract_keywords_for_sections sections bp th).get ⟨n, h1⟩).embedding_vector =
            (sections.get ⟨n, h2⟩).embedding_vector := by
  constructor
  · simp [extract_keywords_for_sections]
  · intro n h1 h2
    simp [extract_keywords_for_sections, List.get_eq_getElem, List.getElem_map]

/-- Witness for C9 at a concrete section list. -/
theorem c9_witness :
    (extract_keywords_for_sections [kwSectionW] (fun _ => none) (fun _ => none)).length =
        ([kwSectionW] : List SectionSchema).length ∧
      ((extract_keywords_for_sections [kwSectionW] (fun _ => none)
            (fun _ => none)).get ⟨0, by decide⟩).content =
        (([kwSectionW] : List SectionSchema).get ⟨0, by decide⟩).content :=
  ⟨(c9_keywords_frame_effect [kwSectionW] (fun _ => none) (fun _ => none)).1,
    ((c9_keywords_frame_effect [kwSectionW] (fun _ => none) (fun _ => none)).2 0
      (by decide) (by decide)).2.2.2.2.1⟩

end Atlas

namespace Atlas

/-! dedupFirst lemmas. -/

theorem dedupFirstAux_not_mem_seen {α : Type} [DecidableEq α] :
    ∀ (l seen : List α) (a : α), a ∈ dedupFirstAux l seen → a ∉ seen := by
  intro l
  induction l with
  | nil => intro seen a h; simp [dedupFirstAux] at h
  | cons x t ih =>
    intro seen a h
    by_cases hx : x ∈ seen
    · rw [dedupFirstAux, if_pos hx] at h
      exact ih seen a h
    · rw [dedupFirstAux, if_neg hx] at h
      rcases List.mem_cons.mp h with rfl | hm
      · exact hx
      · intro hs
        exact ih (x :: seen) a hm (List.mem_cons_of_mem x hs)

theorem dedupFirstAux_nodup {α : Type} [DecidableEq α] :
    ∀ (l seen : List α), (dedupFirstAux l seen).Nodup := by
  intro l
  induction l with
  | nil => intro seen; simp [dedupFirstAux]
  | cons x t ih =>
    intro seen
    by_cases hx : x ∈ seen
    · rw [dedupFirstAux, if_pos hx]; exact ih seen
    · rw [dedupFirstAux, if_neg hx]
      refine List.nodup_cons.mpr ⟨?_, ih (x :: seen)⟩
      intro hm
      exact dedupFirstAux_not_mem_seen t (x :: seen) x hm (List.mem_cons_self x seen)

theorem dedupFirstAux_sublist {α : Type} [DecidableEq α] :
    ∀ (l seen : List α), List.Sublist (dedupFirstAux l seen) l := by
  intro l
  induction l with
  | nil => intro seen; simp [dedupFirstAux]
  | cons x t ih =>
    intro seen
    by_cases hx : x ∈ seen
    · rw [dedupFirstAux, if_pos hx]
      exact (ih seen).trans (List.sublist_cons_self x t)
    · rw [dedupFirstAux, if_neg hx]
      exact List.Sublist.cons₂ x (ih (x :: seen))

end Atlas

namespace Atlas

/-! Claim C6. -/

theorem kwFold_snd :
    ∀ (cands seen kws : List Str),
      (kwFold cands seen kws).2 =
        kws ++ dedupFirstAux (((cands.map kw_normalize).filter goodKw)) seen := by
  intro cands
  induction cands with
  | nil => intro seen kws; simp [kwFold, dedupFirstAux]
  | cons cand rest ih =>
    intro seen kws
    rw [kwFold]
    by_cases hg : kw_normalize cand ≠ [] ∧ 1 < (kw_normalize cand).length
    · have hgb : goodKw (kw_normalize cand) = true := by
        simp [goodKw, hg.1, hg.2]
      have hfil : ((cand :: rest).map kw_normalize).filter goodKw =
          kw_normalize cand :: ((rest.map kw_normalize).filter goodKw) := by
        simp [hgb]
      by_cases hs : kw_normalize cand ∈ seen
      · rw [if_neg (by tauto)]
        rw [ih seen kws, hfil, dedupFirstAux, if_pos hs]
      · rw [if_pos ⟨hg.1, hs, hg.2⟩]
        rw [ih (kw_normalize cand :: seen) (kws ++ [kw_normalize cand])]
        rw [hfil, dedupFirstAux, if_neg hs]
        simp
    · have hgb : goodKw (kw_normalize cand) = false := by
        simp only [goodKw, decide_eq_false_iff_not]
        exact hg
      have hfil : ((cand :: rest).map kw_normalize).filter goodKw =
          ((rest.map kw_normalize).filter goodKw) := by
        simp [List.filter_cons, hgb]
      rw [if_neg (by tauto)]
      rw [ih seen kws, hfil]

/-- C6 counterexample: the keyword list is deduplicated only
case-sensitively, so a heading repeating one word in two cases yields two
keywords equal ignoring case, refuting the case-insensitive claim. -/
theorem c6_counterexample :
    extract_keywords_from_section fooSectionX none none =
        [("Foo".toList), ("foo".toList)] ∧
      lower ("Foo".toList) = lower ("foo".toList) ∧
        ("Foo".toList) ≠ ("foo".toList) := by
  refine ⟨by decide, by decide, by decide⟩

/-- C6 amended: the keyword list equals the first-seen-order,
case-sensitive deduplication of the normalized candidate stream capped at
50 entries; hence it has no exact duplicates, at most 50 entries, and is
a subsequence of the normalized candidates. -/
theorem c6_keywords_amended (sec : SectionSchema) (bp : Option (List Str))
    (th : Option Str) :
    extract_keywords_from_section sec bp th =
        (dedupFirst (((kw_candidates sec bp th).map kw_normalize).filter goodKw)).take 50 ∧
      (extract_keywords_from_section sec bp th).Nodup ∧
      (extract_keywords_from_section sec bp th).length ≤ 50 ∧
      List.Sublist (extract_keywords_from_section sec bp th)
        ((kw_candidates sec bp th).map kw_normalize) := by
  have he : extract_keywords_from_section sec bp th =
      (dedupFirst (((kw_candidates sec bp th).map kw_normalize).filter goodKw)).take 50 := by
    rw [extract_keywords_from_section, kwFold_snd, dedupFirst]
    simp
  refine ⟨he, ?_, ?_, ?_⟩
  · rw [he]
    exact (dedupFirstAux_nodup _ _).sublist (List.take_sublist _ _)
  · rw [he, List.length_take]
    exact min_le_left _ _
  · rw [he]
    exact ((List.take_sublist _ _).trans (dedupFirstAux_sublist _ _)).trans
      (List.filter_sublist _)

/-- Witness for C6 amended at a concrete section. -/
theorem c6_witness :
    (extract_keywords_from_section fooSectionX none none).Nodup ∧
      (extract_keywords_from_section fooSectionX none none).length ≤ 50 :=
  ⟨(c6_keywords_amended fooSectionX none none).2.1,
    (c6_keywords_amended fooSectionX none none).2.2.1⟩

end Atlas

namespace Atlas

/-! Claim C7. -/

set_option maxHeartbeats 3200000 in
/-- The cleaning predicate factors into the junk conditions (independent
of other blocks) and the repeated-key test. -/
theorem keep_block_eq (rep : Str × BlockType → Bool) (b : Block) :
    keep_block rep b =
      (keep_block (fun _ => false) b && ! rep (dedup_key b)) := by
  simp only [keep_block, dedup_key]
  split_ifs <;> simp_all

/-- C7 counterexample: a block whose (normalized text, type) pair occurs
on a single page is nevertheless dropped by the cleaner (its text is
under 20 characters), refuting the reading that the repeated-pair rule is
the only way a block is dropped. -/
theorem c7_counterexample :
    is_repeated_key [shortBlockX] (dedup_key shortBlockX) = false ∧
      shortBlockX ∈ [shortBlockX] ∧ clean_blocks [shortBlockX] = [] := by
  refine ⟨by decide, by decide, by decide⟩

/-- C7 amended: every block whose (normalized text, type) pair occurs on
at least 3 distinct pages is dropped, including the first occurrence; the
surviving blocks form a subsequence of the input (unchanged, original
order); and a block is kept whenever its pair is not repeated and it
passes the independent junk filters. -/
theorem c7_clean_blocks_amended (blocks : List Block) :
    (∀ b ∈ blocks, is_repeated_key blocks (dedup_key b) = true →
        b ∉ clean_blocks blocks) ∧
      List.Sublist (clean_blocks blocks) blocks ∧
      (∀ b ∈ blocks, is_repeated_key blocks (dedup_key b) = false →
        keep_block (fun _ => false) b = true → b ∈ clean_blocks blocks) := by
  by_cases hempty : blocks = []
  · subst hempty
    refine ⟨by simp, by simp [clean_blocks], by simp⟩
  · have hcb : clean_blocks blocks =
        blocks.filter (keep_block (fun k => is_repeated_key blocks k)) := by
      rw [clean_blocks, if_neg hempty]
    refine ⟨?_, ?_, ?_⟩
    · intro b _ hrep hmem
      rw [hcb] at hmem
      have hk := List.of_mem_filter hmem
      rw [keep_block_eq] at hk
      rw [hrep] at hk
      simp at hk
    · rw [hcb]
      exact List.filter_sublist blocks
    · intro b hb hrep hjunk
      rw [hcb]
      refine List.mem_filter.mpr ⟨hb, ?_⟩
      rw [keep_block_eq, hrep, hjunk]
      rfl

/-- Witness for C7 amended: a running header on three distinct pages is
removed from all three occurrences, including the first. -/
theorem c7_witness :
    is_repeated_key headerBlocksW (dedup_key (headerBlock 1)) = true ∧
      headerBlock 1 ∉ clean_blocks headerBlocksW :=
  ⟨by decide,
    (c7_clean_blocks_amended headerBlocksW).1 (headerBlock 1) (by decide) (by decide)⟩

end Atlas

namespace Atlas

/-! Claim C5. -/

/-- C5 counterexample: a bold text block with no font size, a numbered
prefix, and a long single-line body.  The claim prescribes level 3 (it is
not both bold and short, and it has a numbered prefix), but the code
classifies it at level 2 because it is bold. -/
theorem c5_counterexample :
    classify_heading boldNumberedLongBlock none 18 14 12 10 =
        (2, true, ExtractionConfidence.low) ∧
      boldNumberedLongBlock.font_size = none ∧
      boldNumberedLongBlock.is_bold = true ∧
      looks_numbered (strip boldNumberedLongBlock.content) = true ∧
      (decide ((strip boldNumberedLongBlock.content).length < 100) &&
          ! hasChar (strip boldNumberedLongBlock.content) '\n') = false ∧
      claim_fallback_level boldNumberedLongBlock.is_bold false true = 3 := by
  refine ⟨by decide, by decide, by decide, by decide, by decide, by decide⟩

/-- C5 amended: at the default thresholds the classifier equals the
decision table of the claim, with the no-font-size fallback corrected to:
a low-confidence heading when (bold and short) or numbered-prefixed, at
level 2 when the block is bold and at level 3 otherwise. -/
theorem c5_classify_heading_amended (b : Block) (body_size : Option Rat) :
    classify_heading b body_size 18 14 12 10 = spec_classify_heading b body_size := rfl

/-- Witness for C5 amended at the concrete fallback block. -/
theorem c5_witness :
    classify_heading boldNumberedLongBlock none 18 14 12 10 =
      spec_classify_heading boldNumberedLongBlock none :=
  c5_classify_heading_amended boldNumberedLongBlock none

end Atlas

namespace Atlas

/-! Claim C3. -/

theorem dedupSections_singleton (s : SectionSchema) :
    dedupSections [s] [] = [s] := by
  rw [dedupSections]
  simp [dedupSections]

/-- C3 counterexample: a table segment whose content passes the claimed
exempted test (full unique ratio, not axis-like) but sits below the
40-word floor; the code drops it, so the final section list is empty
although the claim says the section is kept. -/
theorem c3_counterexample :
    tableSegX.section_type = SectionType.table ∧
      claim_semantic_exempt tableSegX.content = true ∧
      (chunk_to_sections [tableSegX] 7 srcW 600 300).2 = [] := by
  refine ⟨by decide, by decide, by decide⟩

/-- C3 amended: a table or figure segment yields at most one candidate
section, with heading, type and content verbatim; the candidate exists
exactly when is_semantic holds of the raw content (including the 40-word
floor: no exemption); and for a single such segment the chunker returns
exactly that candidate list. -/
theorem c3_table_figure_amended (seg : Segment) (fid : Nat) (source : Source)
    (max_words soft_max_words sec_index : Nat)
    (hty : seg.section_type = SectionType.table ∨
      seg.section_type = SectionType.figure) :
    ((tableFigureSections seg fid sec_index).1.length ≤ 1) ∧
      (∀ s ∈ (tableFigureSections seg fid sec_index).1,
        s.content = seg.content ∧ s.heading = seg.heading ∧
          s.section_type = seg.section_type) ∧
      ((tableFigureSections seg fid sec_index).1 ≠ [] ↔
        is_semantic seg.content = true) ∧
      (chunk_to_sections [seg] fid source max_words soft_max_words).2 =
        (tableFigureSections seg fid 0).1 := by
  by_cases hsem : is_semantic seg.content
  · refine ⟨?_, ?_, ?_, ?_⟩
    · simp [tableFigureSections, hsem]
    · intro s hs
      simp only [tableFigureSections, hsem, Bool.not_true] at hs
      norm_num at hs
      subst hs
      exact ⟨rfl, rfl, rfl⟩
    · simp [tableFigureSections, hsem]
    · simp only [chunk_to_sections, candidateSections, if_pos hty]
      simp only [tableFigureSections, hsem, Bool.not_true]
      norm_num
      exact dedupSections_singleton _
  · refine ⟨?_, ?_, ?_, ?_⟩
    · simp [tableFigureSections, hsem]
    · intro s hs
      simp [tableFigureSections, hsem] at hs
    · simp [tableFigureSections, hsem]
    · simp only [chunk_to_sections, candidateSections, if_pos hty]
      simp [tableFigureSections, hsem, dedupSections]

/-- Witness for C3 amended: a 45-word table segment passes is_semantic
and is returned by the chunker as its single verbatim section. -/
theorem c3_witness :
    ((tableFigureSections tableSegW 7 0).1 ≠ [] ↔
        is_semantic tableSegW.content = true) ∧
      (chunk_to_sections [tableSegW] 7 srcW 600 300).2 =
        (tableFigureSections tableSegW 7 0).1 :=
  ⟨(c3_table_figure_amended tableSegW 7 srcW 600 300 0 (by decide)).2.2.1,
    (c3_table_figure_amended tableSegW 7 srcW 600 300 0 (by decide)).2.2.2⟩

end Atlas

namespace Atlas

/-! Claim C2. -/

theorem dedupSections_hash_not_mem_seen :
    ∀ (l : List SectionSchema) (seen : List Str) (t : SectionSchema),
      t ∈ dedupSections l seen → hashOf t ∉ seen := by
  intro l
  induction l with
  | nil => intro seen t h; simp [dedupSections] at h
  | cons s rest ih =>
    intro seen t h
    by_cases hs : content_hash s.heading s.content ∈ seen
    · rw [dedupSections] at h
      rw [if_pos hs] at h
      exact ih seen t h
    · rw [dedupSections] at h
      rw [if_neg hs] at h
      rcases List.mem_cons.mp h with rfl | hm
      · exact hs
      · intro hmem
        exact ih (content_hash s.heading s.content :: seen) t hm
          (List.mem_cons_of_mem _ hmem)

theorem dedupSections_sublist :
    ∀ (l : List SectionSchema) (seen : List Str),
      List.Sublist (dedupSections l seen) l := by
  intro l
  induction l with
  | nil => intro seen; simp [dedupSections]
  | cons s rest ih =>
    intro seen
    by_cases hs : content_hash s.heading s.content ∈ seen
    · rw [dedupSections]
      rw [if_pos hs]
      exact (ih seen).trans (List.sublist_cons_self s rest)
    · rw [dedupSections]
      rw [if_neg hs]
      exact List.Sublist.cons₂ s (ih _)

theorem dedupSections_hashes_nodup :
    ∀ (l : List SectionSchema) (seen : List Str),
      ((dedupSections l seen).map hashOf).Nodup := by
  intro l
  induction l with
  | nil => intro seen; simp [dedupSections]
  | cons s rest ih =>
    intro seen
    by_cases hs : content_hash s.heading s.content ∈ seen
    · rw [dedupSections]
      rw [if_pos hs]
      exact ih seen
    · rw [dedupSections]
      rw [if_neg hs]
      rw [List.map_cons]
      refine List.nodup_cons.mpr ⟨?_, ih _⟩
      intro hmem
      rcases List.mem_map.mp hmem with ⟨t, ht, hht⟩
      have := dedupSections_hash_not_mem_seen rest _ t ht
      rw [hht] at this
      exact this (List.mem_cons_self _ _)

theorem dedupSections_cover :
    ∀ (l : List SectionSchema) (seen : List Str) (s : SectionSchema), s ∈ l →
      hashOf s ∈ seen ∨ ∃ t ∈ dedupSections l seen, hashOf t = hashOf s := by
  intro l
  induction l with
  | nil => intro seen s h; simp at h
  | cons x rest ih =>
    intro seen s hmem
    by_cases hx : content_hash x.heading x.content ∈ seen
    · rcases List.mem_cons.mp hmem with rfl | hm
      · exact Or.inl hx
      · rcases ih seen s hm with hseen | ⟨t, ht, hh⟩
        · exact Or.inl hseen
        · refine Or.inr ⟨t, ?_, hh⟩
          rw [dedupSections, if_pos hx]
          exact ht
    · rcases List.mem_cons.mp hmem with rfl | hm
      · refine Or.inr ⟨s, ?_, rfl⟩
        rw [dedupSections, if_neg hx]
        exact List.mem_cons_self _ _
      · rcases ih (content_hash x.heading x.content :: seen) s hm with hseen | ⟨t, ht, hh⟩
        · rcases List.mem_cons.mp hseen with heq | hseen2
          · refine Or.inr ⟨x, ?_, ?_⟩
            · rw [dedupSections, if_neg hx]
              exact List.mem_cons_self _ _
            · rw [hashOf, heq]
          · exact Or.inl hseen2
        · refine Or.inr ⟨t, ?_, hh⟩
          rw [dedupSections, if_neg hx]
          exact List.mem_cons_of_mem _ ht

theorem dedupSections_first_occurrence :
    ∀ (l : List SectionSchema) (seen : List Str) (t : SectionSchema),
      t ∈ dedupSections l seen →
      ∃ n, ∃ h : n < l.length, l.get ⟨n, h⟩ = t ∧
        ∀ u ∈ l.take n, hashOf u ≠ hashOf t := by
  intro l
  induction l with
  | nil => intro seen t h; simp [dedupSections] at h
  | cons x rest ih =>
    intro seen t hmem
    by_cases hx : content_hash x.heading x.content ∈ seen
    · rw [dedupSections, if_pos hx] at hmem
      rcases ih seen t hmem with ⟨n, hn, hget, hbefore⟩
      refine ⟨n + 1, by simpa using Nat.succ_lt_succ hn, hget, ?_⟩
      intro u hu
      rcases List.mem_cons.mp (by simpa [List.take_succ_cons] using hu) with rfl | hu2
      · intro hcontra
        have hts := dedupSections_hash_not_mem_seen rest seen t hmem
        rw [← hcontra] at hts
        exact hts hx
      · exact hbefore u hu2
    · rw [dedupSections, if_neg hx] at hmem
      rcases List.mem_cons.mp hmem with rfl | hm
      · exact ⟨0, by simp, rfl, by simp⟩
      · rcases ih _ t hm with ⟨n, hn, hget, hbefore⟩
        refine ⟨n + 1, by simpa using Nat.succ_lt_succ hn, hget, ?_⟩
        intro u hu
        rcases List.mem_cons.mp (by simpa [List.take_succ_cons] using hu) with rfl | hu2
        · intro hcontra
          have hts := dedupSections_hash_not_mem_seen rest _ t hm
          rw [← hcontra] at hts
          exact hts (List.mem_cons_self _ _)
        · exact hbefore u hu2

/-- C2: in the section list returned by chunk_to_sections no two sections
share the same normalized content hash; the result is a subsequence of
the candidate sections (relative order preserved); every candidate has a
surviving representative with its hash; and every survivor is the first
candidate bearing its hash. -/
theorem c2_dedup_first_wins (segments : List Segment) (fid : Nat) (source : Source)
    (max_words soft_max_words : Nat) :
    (((chunk_to_sections segments fid source max_words soft_max_words).2.map
        hashOf).Nodup) ∧
      List.Sublist (chunk_to_sections segments fid source max_words soft_max_words).2
        (candidateSections fid max_words soft_max_words segments 0) ∧
      (∀ s ∈ candidateSections fid max_words soft_max_words segments 0,
        ∃ t ∈ (chunk_to_sections segments fid source max_words soft_max_words).2,
          hashOf t = hashOf s) ∧
      (∀ t ∈ (chunk_to_sections segments fid source max_words soft_max_words).2,
        ∃ n, ∃ h : n < (candidateSections fid max_words soft_max_words segments 0).length,
          (candidateSections fid max_words soft_max_words segments 0).get ⟨n, h⟩ = t ∧
            ∀ u ∈ (candidateSections fid max_words soft_max_words segments 0).take n,
              hashOf u ≠ hashOf t) := by
  have hres : (chunk_to_sections segments fid source max_words soft_max_words).2 =
      dedupSections (candidateSections fid max_words soft_max_words segments 0) [] := rfl
  rw [hres]
  refine ⟨dedupSections_hashes_nodup _ _, dedupSections_sublist _ _, ?_, ?_⟩
  · intro s hs
    rcases dedupSections_cover _ [] s hs with hseen | h
    · simp at hseen
    · exact h
  · intro t ht
    exact dedupSections_first_occurrence _ [] t ht

/-- Witness for C2: two identical 45-word text segments produce two
candidates with the same hash and a single surviving section. -/
theorem c2_witness :
    (((chunk_to_sections [textSegW, textSegW] 7 srcW 600 300).2.map hashOf).Nodup) ∧
      (candidateSections 7 600 300 [textSegW, textSegW] 0).length = 2 ∧
      (chunk_to_sections [textSegW, textSegW] 7 srcW 600 300).2.length = 1 :=
  ⟨(c2_dedup_first_wins [textSegW, textSegW] 7 srcW 600 300).1, by decide, by decide⟩

end Atlas

namespace Atlas

/-! Word-count lemmas. -/

theorem wordsAux_ws_cons {sp : Char} (hsp : isSpace sp = true) (b acc : Str) :
    wordsAux (sp :: b) acc =
      (if acc = [] then [] else [acc.reverse]) ++ wordsAux b [] := by
  rw [wordsAux, if_pos hsp]
  by_cases h : acc = [] <;> simp [h]

theorem wordsAux_append_ws {sp : Char} (hsp : isSpace sp = true) (b : Str) :
    ∀ (a acc : Str), wordsAux (a ++ sp :: b) acc = wordsAux a acc ++ wordsAux b [] := by
  intro a
  induction a with
  | nil =>
    intro acc
    rw [List.nil_append, wordsAux_ws_cons hsp, wordsAux]
  | cons c cs ih =>
    intro acc
    rw [List.cons_append, wordsAux, wordsAux]
    by_cases hc : isSpace c
    · rw [if_pos hc, if_pos hc]
      by_cases ha : acc = []
      · rw [if_pos ha, if_pos ha, ih]
      · rw [if_neg ha, if_neg ha, ih, List.cons_append]
    · rw [if_neg hc, if_neg hc, ih]

theorem pyWords_append_ws {sp : Char} (hsp : isSpace sp = true) (a b : Str) :
    pyWords (a ++ sp :: b) = pyWords a ++ pyWords b := by
  rw [pyWords, pyWords, pyWords, wordsAux_append_ws hsp]

theorem pyWords_ws_front :
    ∀ (ws b : Str), (∀ c ∈ ws, isSpace c = true) → pyWords (ws ++ b) = pyWords b := by
  intro ws
  induction ws with
  | nil => intro b _; rfl
  | cons w ws' ih =>
    intro b h
    have hw : isSpace w = true := h w (List.mem_cons_self _ _)
    rw [List.cons_append, pyWords, wordsAux, if_pos hw, if_pos rfl]
    exact ih b (fun c hc => h c (List.mem_cons_of_mem _ hc))

theorem pyWords_all_ws (ws : Str) (h : ∀ c ∈ ws, isSpace c = true) :
    pyWords ws = [] := by
  have := pyWords_ws_front ws [] h
  simpa using this

theorem pyWords_ws_suffix (u ws : Str) (h : ∀ c ∈ ws, isSpace c = true) :
    pyWords (u ++ ws) = pyWords u := by
  cases ws with
  | nil => simp
  | cons sp ws' =>
    have hsp : isSpace sp = true := h sp (List.mem_cons_self _ _)
    rw [pyWords_append_ws hsp]
    rw [pyWords_all_ws ws' (fun c hc => h c (List.mem_cons_of_mem _ hc))]
    simp

theorem countWords_append_sep (a sep b : Str) (hne : sep ≠ [])
    (hws : ∀ c ∈ sep, isSpace c = true) :
    countWords (a ++ sep ++ b) = countWords a + countWords b := by
  cases sep with
  | nil => exact absurd rfl hne
  | cons sp sep' =>
    have hsp : isSpace sp = true := hws sp (List.mem_cons_self _ _)
    have h1 : a ++ (sp :: sep') ++ b = a ++ sp :: (sep' ++ b) := by simp
    rw [h1, countWords, pyWords_append_ws hsp]
    rw [pyWords_ws_front sep' b (fun c hc => hws c (List.mem_cons_of_mem _ hc))]
    simp [countWords]

theorem countWords_joinSep (sep : Str) (hne : sep ≠ [])
    (hws : ∀ c ∈ sep, isSpace c = true) :
    ∀ l : List Str, countWords (joinSep sep l) = (l.map countWords).sum := by
  intro l
  induction l with
  | nil => simp [joinSep, countWords, pyWords, wordsAux]
  | cons x t ih =>
    cases t with
    | nil => simp [joinSep]
    | cons y t' =>
      rw [joinSep, countWords_append_sep x sep (joinSep sep (y :: t')) hne hws]
      rw [ih]
      simp

theorem wordsAux_length_acc_ne :
    ∀ (s a₁ a₂ : Str), a₁ ≠ [] → a₂ ≠ [] →
      (wordsAux s a₁).length = (wordsAux s a₂).length := by
  intro s
  induction s with
  | nil => intro a₁ a₂ h1 h2; simp [wordsAux, h1, h2]
  | cons c cs ih =>
    intro a₁ a₂ h1 h2
    by_cases hc : isSpace c
    · rw [wordsAux, if_pos hc, if_neg h1, wordsAux, if_pos hc, if_neg h2]
      simp
    · rw [wordsAux, if_neg hc, wordsAux, if_neg hc]
      exact ih (c :: a₁) (c :: a₂) (by simp) (by simp)

theorem wordsAux_length_nil_le :
    ∀ (s acc : Str), (wordsAux s []).length ≤ (wordsAux s acc).length := by
  intro s
  induction s with
  | nil => intro acc; simp [wordsAux]
  | cons c cs ih =>
    intro acc
    by_cases hc : isSpace c
    · rw [wordsAux, if_pos hc, if_pos rfl, wordsAux, if_pos hc]
      by_cases ha : acc = []
      · rw [if_pos ha]
      · rw [if_neg ha]
        simp only [List.length_cons]
        exact Nat.le_succ_of_le (Nat.le_refl _)
    · rw [wordsAux, if_neg hc, wordsAux, if_neg hc]
      by_cases ha : acc = []
      · rw [ha]
      · rw [wordsAux_length_acc_ne cs (c :: []) (c :: acc) (by simp) (by simp)]

theorem wordsAux_length_pos :
    ∀ (s acc : Str), acc ≠ [] → 1 ≤ (wordsAux s acc).length := by
  intro s
  induction s with
  | nil => intro acc h; simp [wordsAux, h]
  | cons c cs ih =>
    intro acc h
    by_cases hc : isSpace c
    · rw [wordsAux, if_pos hc, if_neg h]
      simp
    · rw [wordsAux, if_neg hc]
      exact ih (c :: acc) (by simp)

theorem countWords_append_le (a b : Str) : countWords b ≤ countWords (a ++ b) := by
  induction a with
  | nil => simp
  | cons c a' ih =>
    by_cases hc : isSpace c
    · have h1 : countWords ((c :: a') ++ b) = countWords (a' ++ b) := by
        rw [List.cons_append]
        show (wordsAux (c :: (a' ++ b)) []).length = _
        rw [wordsAux, if_pos hc, if_pos rfl]
        rfl
      rw [h1]
      exact ih
    · have h1 : countWords ((c :: a') ++ b) = (wordsAux (a' ++ b) (c :: [])).length := by
        rw [List.cons_append]
        show (wordsAux (c :: (a' ++ b)) []).length = _
        rw [wordsAux, if_neg hc]
      rw [h1]
      exact le_trans ih (wordsAux_length_nil_le _ _)

theorem countWords_drop_le (s : Str) (n : Nat) :
    countWords (s.drop n) ≤ countWords s := by
  have h := countWords_append_le (s.take n) (s.drop n)
  rwa [List.take_append_drop] at h

theorem pyWords_lstrip (s : Str) : pyWords (lstrip s) = pyWords s := by
  induction s with
  | nil => rfl
  | cons c cs ih =>
    by_cases hc : isSpace c
    · rw [lstrip, List.dropWhile_cons_of_pos hc]
      have h1 : pyWords (c :: cs) = pyWords cs := by
        show wordsAux (c :: cs) [] = _
        rw [wordsAux, if_pos hc, if_pos rfl]
        rfl
      rw [h1]
      exact ih
    · rw [lstrip, List.dropWhile_cons_of_neg hc]

theorem rstrip_append_tail (s : Str) :
    rstrip s ++ (s.reverse.takeWhile isSpace).reverse = s := by
  rw [rstrip, ← List.reverse_append, List.takeWhile_append_dropWhile, List.reverse_reverse]

theorem pyWords_rstrip (s : Str) : pyWords (rstrip s) = pyWords s := by
  conv_rhs => rw [← rstrip_append_tail s]
  rw [pyWords_ws_suffix]
  intro c hc
  have := List.mem_reverse.mp hc
  exact List.mem_takeWhile_imp this

theorem pyWords_strip (s : Str) : pyWords (strip s) = pyWords s := by
  rw [strip, pyWords_lstrip, pyWords_rstrip]

theorem countWords_strip (s : Str) : countWords (strip s) = countWords s := by
  rw [countWords, pyWords_strip]
  rfl

theorem countWords_lstrip (s : Str) : countWords (lstrip s) = countWords s := by
  rw [countWords, pyWords_lstrip]
  rfl

theorem pyWords_eq_nil_iff (s : Str) :
    pyWords s = [] ↔ ∀ c ∈ s, isSpace c = true := by
  constructor
  · induction s with
    | nil => intro _ c hc; simp at hc
    | cons c cs ih =>
      intro h x hx
      by_cases hc : isSpace c
      · rw [pyWords, wordsAux, if_pos hc, if_pos rfl] at h
        rcases List.mem_cons.mp hx with rfl | hm
        · exact hc
        · exact ih h x hm
      · rw [pyWords, wordsAux, if_neg hc] at h
        have := wordsAux_length_pos cs (c :: []) (by simp)
        rw [h] at this
        simp at this
  · exact pyWords_all_ws s

theorem dropWhile_eq_nil_of_all {p : Char → Bool} :
    ∀ (s : Str), (∀ c ∈ s, p c = true) → s.dropWhile p = [] := by
  intro s
  induction s with
  | nil => intro _; rfl
  | cons c cs ih =>
    intro h
    rw [List.dropWhile_cons_of_pos (h c (List.mem_cons_self _ _))]
    exact ih (fun x hx => h x (List.mem_cons_of_mem _ hx))

theorem strip_eq_nil_iff (s : Str) :
    strip s = [] ↔ ∀ c ∈ s, isSpace c = true := by
  constructor
  · intro h
    rw [← pyWords_eq_nil_iff, ← pyWords_strip, h]
    rfl
  · intro h
    have hr : rstrip s = [] := by
      rw [rstrip, dropWhile_eq_nil_of_all]
      · rfl
      · intro c hc; exact h c (List.mem_reverse.mp hc)
    rw [strip, hr]
    rfl

theorem strip_cons_ne_nil {c : Char} (hc : isSpace c = false) (t : Str) :
    strip (c :: t) ≠ [] := by
  intro h
  have := (strip_eq_nil_iff _).mp h c (List.mem_cons_self _ _)
  rw [hc] at this
  exact Bool.false_ne_true this

theorem countWords_pos_of_strip_ne_nil {s : Str} (h : strip s ≠ []) :
    1 ≤ countWords s := by
  by_contra hc
  have h0 : countWords s = 0 := by omega
  have : pyWords s = [] := List.length_eq_zero.mp h0
  exact h ((strip_eq_nil_iff s).mpr ((pyWords_eq_nil_iff s).mp this))

end Atlas

namespace Atlas

/-! Strip-structure lemmas. -/

theorem endsNonWs_append_right {w v : Str} (h : endsNonWs (w ++ v)) (hv : v ≠ []) :
    endsNonWs v := by
  rcases h with ⟨u0, c, hu, hc⟩
  rcases List.eq_nil_or_concat v with rfl | ⟨v0, a, rfl⟩
  · exact absurd rfl hv
  · refine ⟨v0, a, by simp, ?_⟩
    have hrev := congrArg List.reverse hu
    simp only [List.concat_eq_append, List.reverse_append, List.reverse_cons,
      List.reverse_nil, List.nil_append, List.cons_append, List.append_assoc] at hrev
    rw [List.cons_eq_cons] at hrev
    rw [hrev.1]
    exact hc

theorem dropWhile_head_neg {p : Char → Bool} :
    ∀ {l : Str} {c : Char} {t : Str}, l.dropWhile p = c :: t → p c = false := by
  intro l
  induction l with
  | nil => intro c t h; simp at h
  | cons a l' ih =>
    intro c t h
    by_cases ha : p a
    · rw [List.dropWhile_cons_of_pos ha] at h
      exact ih h
    · rw [List.dropWhile_cons_of_neg ha] at h
      rcases h with ⟨rfl, rfl⟩
      exact Bool.not_eq_true _ |>.mp ha

theorem endsNonWs_rstrip {s : Str} (h : rstrip s ≠ []) : endsNonWs (rstrip s) := by
  rcases hd : s.reverse.dropWhile isSpace with _ | ⟨d, t⟩
  · rw [rstrip, hd] at h
    simp at h
  · have hdc : isSpace d = false := dropWhile_head_neg hd
    refine ⟨t.reverse, d, ?_, hdc⟩
    rw [rstrip, hd]
    simp

theorem endsNonWs_strip {s : Str} (h : strip s ≠ []) : endsNonWs (strip s) := by
  have hr : rstrip s ≠ [] := by
    intro he
    rw [strip, he] at h
    exact h rfl
  have hEnd := endsNonWs_rstrip hr
  have hdecomp : (rstrip s).takeWhile isSpace ++ strip s = rstrip s := by
    rw [strip, lstrip]
    exact List.takeWhile_append_dropWhile isSpace (rstrip s)
  rw [← hdecomp] at hEnd
  exact endsNonWs_append_right hEnd h

theorem strip_head_nonws {s : Str} {c : Char} {t : Str} (h : strip s = c :: t) :
    isSpace c = false := by
  rw [strip, lstrip] at h
  exact dropWhile_head_neg h

theorem lstrip_eq_self {c : Char} (hc : isSpace c = false) (t : Str) :
    lstrip (c :: t) = c :: t := by
  rw [lstrip, List.dropWhile_cons_of_neg (by rw [hc]; exact Bool.false_ne_true)]

theorem rstrip_eq_self {u : Str} (h : endsNonWs u) : rstrip u = u := by
  rcases h with ⟨u0, c, rfl, hc⟩
  rw [rstrip]
  rw [List.reverse_append]
  simp only [List.reverse_cons, List.reverse_nil, List.nil_append, List.cons_append]
  rw [List.dropWhile_cons_of_neg (by rw [hc]; exact Bool.false_ne_true)]
  simp

theorem strip_eq_self {u : Str} (hEnd : endsNonWs u)
    (hHead : ∀ c t, u = c :: t → isSpace c = false) : strip u = u := by
  rw [strip, rstrip_eq_self hEnd]
  cases u with
  | nil => rfl
  | cons c t => exact lstrip_eq_self (hHead c t rfl) t

theorem strip_idem (s : Str) : strip (strip s) = strip s := by
  rcases hs : strip s with _ | ⟨c, t⟩
  · rfl
  · rw [← hs]
    apply strip_eq_self (endsNonWs_strip (by rw [hs]; simp))
    intro c' t' h
    exact strip_head_nonws h

theorem dropWhile_append_of_all {p : Char → Bool} :
    ∀ (a b : Str), (∀ c ∈ a, p c = true) → (a ++ b).dropWhile p = b.dropWhile p := by
  intro a
  induction a with
  | nil => intro b _; rfl
  | cons c a' ih =>
    intro b h
    rw [List.cons_append, List.dropWhile_cons_of_pos (h c (List.mem_cons_self _ _))]
    exact ih b (fun x hx => h x (List.mem_cons_of_mem _ hx))

theorem rstrip_append_ws (u ws : Str) (h : ∀ c ∈ ws, isSpace c = true) :
    rstrip (u ++ ws) = rstrip u := by
  rw [rstrip, rstrip, List.reverse_append]
  rw [dropWhile_append_of_all _ _ (fun c hc => h c (List.mem_reverse.mp hc))]

theorem strip_append_ws (u ws : Str) (h : ∀ c ∈ ws, isSpace c = true) :
    strip (u ++ ws) = strip u := by
  rw [strip, rstrip_append_ws u ws h]
  rfl

theorem strip_ne_nil_of_mem {p : Str} {x : Char} (hx : x ∈ p)
    (hnw : isSpace x = false) : strip p ≠ [] := by
  intro h
  have := (strip_eq_nil_iff p).mp h x hx
  rw [hnw] at this
  exact Bool.false_ne_true this

end Atlas

namespace Atlas

/-! Paragraph-splitter lemmas. -/

theorem splitParasAux_head_cur :
    ∀ (cs cur buf : Str), ∃ t, (splitParasAux cs cur buf).head? = some (cur ++ t) := by
  intro cs
  induction cs with
  | nil =>
    intro cur buf
    by_cases h2 : 2 ≤ nlCount buf
    · exact ⟨beforeFirstNl buf, by rw [splitParasAux, if_pos h2]; rfl⟩
    · exact ⟨buf, by rw [splitParasAux, if_neg h2]; rfl⟩
  | cons c cs' ih =>
    intro cur buf
    by_cases hc : isSpace c
    · rcases ih cur (buf ++ [c]) with ⟨t, ht⟩
      exact ⟨t, by rw [splitParasAux, if_pos hc]; exact ht⟩
    · by_cases h2 : 2 ≤ nlCount buf
      · exact ⟨beforeFirstNl buf, by rw [splitParasAux, if_neg hc, if_pos h2]; rfl⟩
      · rcases ih (cur ++ buf ++ [c]) [] with ⟨t, ht⟩
        refine ⟨buf ++ [c] ++ t, ?_⟩
        rw [splitParasAux, if_neg hc, if_neg h2, ht]
        simp

theorem splitParasAux_head_len :
    ∀ (cs cur buf : Str) (p : Str), (splitParasAux cs cur buf).head? = some p →
      p.length ≤ cur.length + buf.length + cs.length := by
  intro cs
  induction cs with
  | nil =>
    intro cur buf p hp
    by_cases h2 : 2 ≤ nlCount buf
    · rw [splitParasAux, if_pos h2] at hp
      simp only [List.head?_cons, Option.some_inj] at hp
      subst hp
      have : (beforeFirstNl buf).length ≤ buf.length := by
        rw [beforeFirstNl]
        exact (List.takeWhile_sublist _).length_le
      simp only [List.length_append]
      omega
    · rw [splitParasAux, if_neg h2] at hp
      simp only [List.head?_cons, Option.some_inj] at hp
      subst hp
      simp
  | cons c cs' ih =>
    intro cur buf p hp
    by_cases hc : isSpace c
    · rw [splitParasAux, if_pos hc] at hp
      have := ih cur (buf ++ [c]) p hp
      simp only [List.length_append, List.length_cons, List.length_nil,
        List.length_singleton] at this ⊢
      omega
    · by_cases h2 : 2 ≤ nlCount buf
      · rw [splitParasAux, if_neg hc, if_pos h2] at hp
        simp only [List.head?_cons, Option.some_inj] at hp
        subst hp
        have : (beforeFirstNl buf).length ≤ buf.length := by
          rw [beforeFirstNl]
          exact (List.takeWhile_sublist _).length_le
        simp only [List.length_append, List.length_cons]
        omega
      · rw [splitParasAux, if_neg hc, if_neg h2] at hp
        have := ih (cur ++ buf ++ [c]) [] p hp
        simp only [List.length_append, List.length_cons, List.length_nil,
          List.length_singleton] at this ⊢
        omega

theorem splitParasAux_ne_nil :
    ∀ (cs cur buf : Str), splitParasAux cs cur buf ≠ [] := by
  intro cs
  induction cs with
  | nil =>
    intro cur buf
    by_cases h2 : 2 ≤ nlCount buf
    · rw [splitParasAux, if_pos h2]; simp
    · rw [splitParasAux, if_neg h2]; simp
  | cons c cs' ih =>
    intro cur buf
    by_cases hc : isSpace c
    · rw [splitParasAux, if_pos hc]; exact ih _ _
    · by_cases h2 : 2 ≤ nlCount buf
      · rw [splitParasAux, if_neg hc, if_pos h2]; simp
      · rw [splitParasAux, if_neg hc, if_neg h2]; exact ih _ _

theorem splitParasAux_sep_step (c0 : Char) (c' CUR : Str) (hc0 : isSpace c0 = false) :
    splitParasAux ('\n' :: '\n' :: c0 :: c') CUR [] =
      CUR :: splitParasAux c' (c0 :: []) [] := by
  have hnl : isSpace '\n' = true := by decide
  have hc0m : ¬ (isSpace c0 = true) := by rw [hc0]; exact Bool.false_ne_true
  rw [splitParasAux, if_pos hnl]
  rw [splitParasAux, if_pos hnl]
  rw [splitParasAux, if_neg hc0m, if_pos (by decide : 2 ≤ nlCount ([] ++ ['\n'] ++ ['\n']))]
  norm_num [beforeFirstNl, afterLastNl]

theorem splitParasAux_start_nonws (c0 : Char) (c' : Str) (hc0 : isSpace c0 = false) :
    splitParasAux (c0 :: c') [] [] = splitParasAux c' (c0 :: []) [] := by
  have hc0m : ¬ (isSpace c0 = true) := by rw [hc0]; exact Bool.false_ne_true
  rw [splitParasAux, if_neg hc0m, if_neg (by decide : ¬ (2 ≤ nlCount []))]
  norm_num

theorem splitParasAux_concat :
    ∀ (h : Str), endsNonWs h →
      ∀ (c0 : Char) (c' : Str), isSpace c0 = false →
        ∀ (cur buf : Str),
          splitParasAux (h ++ '\n' :: '\n' :: c0 :: c') cur buf =
            splitParasAux h cur buf ++ splitParasAux (c0 :: c') [] [] := by
  intro h
  induction h with
  | nil =>
    intro hEnd
    rcases hEnd with ⟨u0, c, he, _⟩
    simp at he
  | cons a h' ih =>
    intro hEnd c0 c' hc0 cur buf
    cases h' with
    | nil =>
      have ha : isSpace a = false := by
        rcases hEnd with ⟨u0, c, he, hcws⟩
        cases u0 with
        | nil =>
          simp at he
          rw [he]
          exact hcws
        | cons x xs => simp at he
      have ham : ¬ (isSpace a = true) := by rw [ha]; exact Bool.false_ne_true
      by_cases h2 : 2 ≤ nlCount buf
      · rw [List.cons_append, List.nil_append]
        rw [splitParasAux, if_neg ham, if_pos h2]
        rw [splitParasAux_sep_step c0 c' _ hc0]
        rw [splitParasAux, if_neg ham, if_pos h2]
        rw [splitParasAux, if_neg (by decide : ¬ (2 ≤ nlCount ([] : Str)))]
        rw [splitParasAux_start_nonws c0 c' hc0]
        simp
      · rw [List.cons_append, List.nil_append]
        rw [splitParasAux, if_neg ham, if_neg h2]
        rw [splitParasAux_sep_step c0 c' _ hc0]
        rw [splitParasAux, if_neg ham, if_neg h2]
        rw [splitParasAux, if_neg (by decide : ¬ (2 ≤ nlCount ([] : Str)))]
        rw [splitParasAux_start_nonws c0 c' hc0]
        simp
    | cons b h'' =>
      have hEnd' : endsNonWs (b :: h'') := by
        have : endsNonWs ([a] ++ b :: h'') := by simpa using hEnd
        exact endsNonWs_append_right this (by simp)
      by_cases hca : isSpace a
      · rw [List.cons_append]
        rw [splitParasAux, if_pos hca]
        conv_rhs => rw [splitParasAux, if_pos hca]
        exact ih hEnd' c0 c' hc0 cur (buf ++ [a])
      · by_cases h2 : 2 ≤ nlCount buf
        · rw [List.cons_append]
          rw [splitParasAux, if_neg hca, if_pos h2]
          conv_rhs => rw [splitParasAux, if_neg hca, if_pos h2]
          rw [ih hEnd' c0 c' hc0 (afterLastNl buf ++ [a]) []]
          simp
        · rw [List.cons_append]
          rw [splitParasAux, if_neg hca, if_neg h2]
          conv_rhs => rw [splitParasAux, if_neg hca, if_neg h2]
          exact ih hEnd' c0 c' hc0 (cur ++ buf ++ [a]) []

theorem splitParasAux_head_first_char :
    ∀ (c0 : Char) (cs' cur : Str), isSpace c0 = false →
      ∃ t, (splitParasAux (c0 :: cs') cur []).head? = some (cur ++ c0 :: t) := by
  intro c0 cs' cur hc0
  have hc0m : ¬ (isSpace c0 = true) := by rw [hc0]; exact Bool.false_ne_true
  rw [splitParasAux, if_neg hc0m, if_neg (by decide : ¬ (2 ≤ nlCount []))]
  rcases splitParasAux_head_cur cs' (cur ++ [] ++ [c0]) [] with ⟨t, ht⟩
  refine ⟨t, ?_⟩
  rw [ht]
  simp

end Atlas

namespace Atlas

/-! Sentence-splitter lemmas. -/

theorem splitSentsAux_piece_len :
    ∀ (cs cur : Str) (sk : Bool) (p : Str), p ∈ splitSentsAux cs cur sk →
      p.length ≤ cur.length + cs.length := by
  intro cs
  induction cs with
  | nil =>
    intro cur sk p hp
    rw [splitSentsAux] at hp
    simp at hp
    subst hp
    simp
  | cons c cs' ih =>
    intro cur sk p hp
    rw [splitSentsAux] at hp
    by_cases hsk : sk
    · rw [if_pos hsk] at hp
      by_cases hc : isSpace c
      · rw [if_pos hc] at hp
        have := ih cur true p hp
        simp only [List.length_cons]
        omega
      · rw [if_neg hc] at hp
        have := ih (c :: []) false p hp
        simp only [List.length_cons, List.length_singleton, List.length_nil] at this ⊢
        omega
    · rw [if_neg hsk] at hp
      by_cases hcond : (isSpace c && (match cur.getLast? with
          | some p => isSentEnd p
          | none => false)) = true
      · rw [if_pos hcond] at hp
        rcases List.mem_cons.mp hp with rfl | hm
        · simp only [List.length_cons]
          omega
        · have := ih [] true p hm
          simp only [List.length_nil, List.length_cons] at this ⊢
          omega
      · rw [if_neg hcond] at hp
        have := ih (cur ++ [c]) false p hp
        simp only [List.length_append, List.length_cons, List.length_singleton,
          List.length_nil] at this ⊢
        omega

theorem splitSentsAux_exists_nonblank :
    ∀ (cs cur : Str) (sk : Bool),
      ((∃ x ∈ cur, isSpace x = false) ∨ (∃ x ∈ cs, isSpace x = false)) →
      ∃ p ∈ splitSentsAux cs cur sk, strip p ≠ [] := by
  intro cs
  induction cs with
  | nil =>
    intro cur sk h
    rcases h with ⟨x, hx, hnw⟩ | ⟨x, hx, _⟩
    · refine ⟨cur, ?_, strip_ne_nil_of_mem hx hnw⟩
      rw [splitSentsAux]
      simp
    · simp at hx
  | cons c cs' ih =>
    intro cur sk h
    rw [splitSentsAux]
    by_cases hsk : sk
    · rw [if_pos hsk]
      by_cases hc : isSpace c
      · rw [if_pos hc]
        refine ih cur true ?_
        rcases h with hcur | ⟨x, hx, hnw⟩
        · exact Or.inl hcur
        · rcases List.mem_cons.mp hx with rfl | hm
          · rw [hc] at hnw
            exact absurd hnw (by simp)
          · exact Or.inr ⟨x, hm, hnw⟩
      · rw [if_neg hc]
        refine ih (c :: []) false (Or.inl ⟨c, List.mem_cons_self _ _, ?_⟩)
        exact Bool.not_eq_true _ |>.mp hc
    · rw [if_neg hsk]
      by_cases hcond : (isSpace c && (match cur.getLast? with
          | some p => isSentEnd p
          | none => false)) = true
      · rw [if_pos hcond]
        have hc : isSpace c = true := by
          have h2 := hcond
          rw [Bool.and_eq_true] at h2
          exact h2.1
        rcases h with ⟨x, hx, hnw⟩ | ⟨x, hx, hnw⟩
        · exact ⟨cur, List.mem_cons_self _ _, strip_ne_nil_of_mem hx hnw⟩
        · rcases List.mem_cons.mp hx with rfl | hm
          · rw [hc] at hnw
            exact absurd hnw (by simp)
          · rcases ih [] true (Or.inr ⟨x, hm, hnw⟩) with ⟨p, hp, hps⟩
            exact ⟨p, List.mem_cons_of_mem _ hp, hps⟩
      · rw [if_neg hcond]
        refine ih (cur ++ [c]) false ?_
        rcases h with ⟨x, hx, hnw⟩ | ⟨x, hx, hnw⟩
        · exact Or.inl ⟨x, List.mem_append_left _ hx, hnw⟩
        · rcases List.mem_cons.mp hx with rfl | hm
          · exact Or.inl ⟨x, List.mem_append_right _ (List.mem_cons_self _ _), hnw⟩
          · exact Or.inr ⟨x, hm, hnw⟩

end Atlas

namespace Atlas

/-! Chunk-packing lemmas. -/

theorem ws_space : ∀ c ∈ ([' '] : Str), isSpace c = true := by
  intro c hc
  simp at hc
  subst hc
  decide

theorem ws_nn : ∀ c ∈ (['\n', '\n'] : Str), isSpace c = true := by
  intro c hc
  simp at hc
  rcases hc with rfl | rfl <;> decide

theorem sum_map_append_single (l : List Str) (x : Str) :
    (((l ++ [x]).map countWords).sum) = (l.map countWords).sum + countWords x := by
  simp

theorem sbsGo_sound (max_words : Nat) :
    ∀ (pieces current : List Str) (cw : Nat),
      cw = (current.map countWords).sum → cw ≤ max_words →
      ∀ ch ∈ sbsGo max_words pieces current cw,
        countWords ch ≤ max_words ∨
          ∃ q ∈ pieces, ch = strip q ∧ max_words < countWords ch := by
  intro pieces
  induction pieces with
  | nil =>
    intro current cw hcw hle ch hch
    rw [sbsGo] at hch
    by_cases hc : current = []
    · rw [if_pos hc] at hch
      simp at hch
    · rw [if_neg hc] at hch
      simp at hch
      subst hch
      left
      rw [countWords_joinSep [' '] (by simp) ws_space, ← hcw]
      exact hle
  | cons piece rest ih =>
    intro current cw hcw hle ch hch
    rw [sbsGo] at hch
    by_cases hsent : strip piece = []
    · rw [if_pos hsent] at hch
      rcases ih current cw hcw hle ch hch with h | ⟨q, hq, he⟩
      · exact Or.inl h
      · exact Or.inr ⟨q, List.mem_cons_of_mem _ hq, he⟩
    · rw [if_neg hsent] at hch
      by_cases hfit : cw + countWords (strip piece) ≤ max_words
      · rw [if_pos hfit] at hch
        rcases ih (current ++ [strip piece]) (cw + countWords (strip piece))
            (by rw [hcw, sum_map_append_single]) hfit ch hch with h | ⟨q, hq, he⟩
        · exact Or.inl h
        · exact Or.inr ⟨q, List.mem_cons_of_mem _ hq, he⟩
      · rw [if_neg hfit] at hch
        rcases List.mem_append.mp hch with hflush | hrest
        · by_cases hcur : current = []
          · rw [if_pos hcur] at hflush
            simp at hflush
          · rw [if_neg hcur] at hflush
            simp at hflush
            subst hflush
            left
            rw [countWords_joinSep [' '] (by simp) ws_space, ← hcw]
            exact hle
        · by_cases hw : countWords (strip piece) ≤ max_words
          · rw [if_pos hw] at hrest
            rcases ih [strip piece] (countWords (strip piece)) (by simp) hw ch hrest
              with h | ⟨q, hq, he⟩
            · exact Or.inl h
            · exact Or.inr ⟨q, List.mem_cons_of_mem _ hq, he⟩
          · rw [if_neg hw] at hrest
            rcases List.mem_cons.mp hrest with rfl | hm
            · exact Or.inr ⟨piece, List.mem_cons_self _ _, rfl, by omega⟩
            · rcases ih [] 0 (by simp) (Nat.zero_le _) ch hm with h | ⟨q, hq, he⟩
              · exact Or.inl h
              · exact Or.inr ⟨q, List.mem_cons_of_mem _ hq, he⟩

theorem sbsGo_ne_nil (max_words : Nat) :
    ∀ (pieces current : List Str) (cw : Nat),
      (current ≠ [] ∨ ∃ q ∈ pieces, strip q ≠ []) →
      sbsGo max_words pieces current cw ≠ [] := by
  intro pieces
  induction pieces with
  | nil =>
    intro current cw h
    rcases h with hc | ⟨q, hq, _⟩
    · rw [sbsGo, if_neg hc]
      simp
    · simp at hq
  | cons piece rest ih =>
    intro current cw h
    rw [sbsGo]
    by_cases hsent : strip piece = []
    · rw [if_pos hsent]
      refine ih current cw ?_
      rcases h with hc | ⟨q, hq, hqs⟩
      · exact Or.inl hc
      · rcases List.mem_cons.mp hq with rfl | hm
        · exact absurd hsent hqs
        · exact Or.inr ⟨q, hm, hqs⟩
    · rw [if_neg hsent]
      by_cases hfit : cw + countWords (strip piece) ≤ max_words
      · rw [if_pos hfit]
        exact ih _ _ (Or.inl (by simp))
      · rw [if_neg hfit]
        by_cases hcur : current = []
        · rw [if_pos hcur]
          simp only [List.nil_append]
          by_cases hw : countWords (strip piece) ≤ max_words
          · rw [if_pos hw]
            exact ih _ _ (Or.inl (by simp))
          · rw [if_neg hw]
            simp
        · rw [if_neg hcur]
          simp

end Atlas

namespace Atlas

theorem ssGo_overflow_step (max_words soft_max_words : Nat) (piece : Str)
    (rest current : List Str) (cw : Nat) (hp : strip piece ≠ [])
    (hoverflow : ¬ (cw + countWords (strip piece) ≤ max_words)) :
    ssGo max_words soft_max_words (piece :: rest) current cw =
      (if current = [] then [] else [joinSep ['\n', '\n'] current]) ++
        (if countWords (strip piece) ≤ max_words then
          ssGo max_words soft_max_words rest [strip piece] (countWords (strip piece))
        else
          split_paragraph_by_sentences (strip piece) max_words soft_max_words ++
            ssGo max_words soft_max_words rest [] 0) := by
  rw [ssGo, if_neg hp, if_neg hoverflow]
  by_cases hbr : soft_max_words ≤ cw ∨ current = []
  · rw [if_pos hbr]
  · rw [if_neg hbr]

theorem ssGo_sound (max_words soft_max_words : Nat) :
    ∀ (pieces current : List Str) (cw : Nat),
      cw = (current.map countWords).sum → cw ≤ max_words →
      ∀ ch ∈ ssGo max_words soft_max_words pieces current cw,
        countWords ch ≤ max_words ∨
          ∃ p ∈ pieces, ∃ q ∈ pySplitSents (strip p),
            ch = strip q ∧ max_words < countWords ch := by
  intro pieces
  induction pieces with
  | nil =>
    intro current cw hcw hle ch hch
    rw [ssGo] at hch
    by_cases hc : current = []
    · rw [if_pos hc] at hch
      simp at hch
    · rw [if_neg hc] at hch
      simp at hch
      subst hch
      left
      rw [countWords_joinSep ['\n', '\n'] (by simp) ws_nn, ← hcw]
      exact hle
  | cons piece rest ih =>
    intro current cw hcw hle ch hch
    by_cases hsent : strip piece = []
    · rw [ssGo, if_pos hsent] at hch
      rcases ih current cw hcw hle ch hch with h | ⟨p, hp, hq⟩
      · exact Or.inl h
      · exact Or.inr ⟨p, List.mem_cons_of_mem _ hp, hq⟩
    · by_cases hfit : cw + countWords (strip piece) ≤ max_words
      · rw [ssGo, if_neg hsent, if_pos hfit] at hch
        rcases ih (current ++ [strip piece]) (cw + countWords (strip piece))
            (by rw [hcw, sum_map_append_single]) hfit ch hch with h | ⟨p, hp, hq⟩
        · exact Or.inl h
        · exact Or.inr ⟨p, List.mem_cons_of_mem _ hp, hq⟩
      · rw [ssGo_overflow_step max_words soft_max_words piece rest current cw hsent hfit]
          at hch
        rcases List.mem_append.mp hch with hflush | hrest
        · by_cases hcur : current = []
          · rw [if_pos hcur] at hflush
            simp at hflush
          · rw [if_neg hcur] at hflush
            simp at hflush
            subst hflush
            left
            rw [countWords_joinSep ['\n', '\n'] (by simp) ws_nn, ← hcw]
            exact hle
        · by_cases hw : countWords (strip piece) ≤ max_words
          · rw [if_pos hw] at hrest
            rcases ih [strip piece] (countWords (strip piece)) (by simp) hw ch hrest
              with h | ⟨p, hp, hq⟩
            · exact Or.inl h
            · exact Or.inr ⟨p, List.mem_cons_of_mem _ hp, hq⟩
          · rw [if_neg hw] at hrest
            rcases List.mem_append.mp hrest with hsbs | hm
            · rcases sbsGo_sound max_words (pySplitSents (strip piece)) [] 0 (by simp)
                  (Nat.zero_le _) ch hsbs with h | ⟨q, hq, he, hgt⟩
              · exact Or.inl h
              · exact Or.inr ⟨piece, List.mem_cons_self _ _, q, hq, he, hgt⟩
            · rcases ih [] 0 (by simp) (Nat.zero_le _) ch hm with h | ⟨p, hp, hq⟩
              · exact Or.inl h
              · exact Or.inr ⟨p, List.mem_cons_of_mem _ hp, hq⟩

end Atlas

namespace Atlas

theorem head?_append_of_ne_nil {α : Type} {l : List α} (y : List α) (h : l ≠ []) :
    (l ++ y).head? = l.head? := by
  cases l with
  | nil => exact absurd rfl h
  | cons a t => rfl

theorem mem_of_head?_eq_some {α : Type} {l : List α} {a : α} (h : l.head? = some a) :
    a ∈ l := by
  cases l with
  | nil => simp at h
  | cons x t =>
    simp at h
    subst h
    exact List.mem_cons_self _ _

theorem ssGo_head_current_ne (max_words soft_max_words : Nat) :
    ∀ (pieces current : List Str) (cw : Nat), current ≠ [] →
      cw = (current.map countWords).sum → cw ≤ max_words →
      ∀ ch, (ssGo max_words soft_max_words pieces current cw).head? = some ch →
        countWords ch ≤ max_words := by
  intro pieces
  induction pieces with
  | nil =>
    intro current cw hcur hcw hle ch hch
    rw [ssGo, if_neg hcur] at hch
    simp at hch
    subst hch
    rw [countWords_joinSep ['\n', '\n'] (by simp) ws_nn, ← hcw]
    exact hle
  | cons piece rest ih =>
    intro current cw hcur hcw hle ch hch
    by_cases hsent : strip piece = []
    · rw [ssGo, if_pos hsent] at hch
      exact ih current cw hcur hcw hle ch hch
    · by_cases hfit : cw + countWords (strip piece) ≤ max_words
      · rw [ssGo, if_neg hsent, if_pos hfit] at hch
        exact ih (current ++ [strip piece]) _ (by simp)
          (by rw [hcw, sum_map_append_single]) hfit ch hch
      · rw [ssGo_overflow_step max_words soft_max_words piece rest current cw hsent hfit,
          if_neg hcur] at hch
        rw [head?_append_of_ne_nil _ (by simp)] at hch
        simp at hch
        subst hch
        rw [countWords_joinSep ['\n', '\n'] (by simp) ws_nn, ← hcw]
        exact hle

theorem ssGo_head_start (max_words soft_max_words : Nat) :
    ∀ (pieces : List Str) (ch : Str),
      (ssGo max_words soft_max_words pieces [] 0).head? = some ch →
      countWords ch ≤ max_words ∨
        ∃ p, pieces.find? (fun q => decide (strip q ≠ [])) = some p ∧
          ∃ q ∈ pySplitSents (strip p), ch = strip q := by
  intro pieces
  induction pieces with
  | nil =>
    intro ch hch
    rw [ssGo] at hch
    simp at hch
  | cons piece rest ih =>
    intro ch hch
    by_cases hsent : strip piece = []
    · rw [ssGo, if_pos hsent] at hch
      rcases ih ch hch with h | ⟨p, hfind, hq⟩
      · exact Or.inl h
      · refine Or.inr ⟨p, ?_, hq⟩
        rw [List.find?_cons_of_neg]
        · exact hfind
        · simp [hsent]
    · by_cases hfit : 0 + countWords (strip piece) ≤ max_words
      · rw [ssGo, if_neg hsent, if_pos hfit] at hch
        left
        exact ssGo_head_current_ne max_words soft_max_words rest [strip piece] _
          (by simp) (by simp) (by omega) ch hch
      · rw [ssGo_overflow_step max_words soft_max_words piece rest [] 0 hsent hfit,
          if_pos rfl] at hch
        rw [if_neg (by omega : ¬ (countWords (strip piece) ≤ max_words))] at hch
        simp only [List.nil_append] at hch
        have hnonblank : ∃ q ∈ pySplitSents (strip piece), strip q ≠ [] := by
          rcases hs : strip piece with _ | ⟨c, t⟩
          · exact absurd hs hsent
          · have hcnw : isSpace c = false := strip_head_nonws hs
            exact splitSentsAux_exists_nonblank (c :: t) [] false
              (Or.inr ⟨c, List.mem_cons_self _ _, hcnw⟩)
        have hsbs_ne : split_paragraph_by_sentences (strip piece) max_words
            soft_max_words ≠ [] :=
          sbsGo_ne_nil max_words (pySplitSents (strip piece)) [] 0 (Or.inr hnonblank)
        rw [head?_append_of_ne_nil _ hsbs_ne] at hch
        have hmem : ch ∈ split_paragraph_by_sentences (strip piece) max_words
            soft_max_words := mem_of_head?_eq_some hch
        rcases sbsGo_sound max_words (pySplitSents (strip piece)) [] 0 (by simp)
            (Nat.zero_le _) ch hmem with h | ⟨q, hq, he, _⟩
        · exact Or.inl h
        · refine Or.inr ⟨piece, ?_, q, hq, he⟩
          rw [List.find?_cons_of_pos]
          simp [hsent]

end Atlas

namespace Atlas

/-! Chunk-to-section lemmas. -/

theorem endsNonWs_append_left {v : Str} (w : Str) (h : endsNonWs v) :
    endsNonWs (w ++ v) := by
  rcases h with ⟨v0, c, rfl, hc⟩
  exact ⟨w ++ v0, c, by simp, hc⟩

theorem strip_length_le (s : Str) : (strip s).length ≤ s.length := by
  have h1 : (strip s).length ≤ (rstrip s).length := by
    rw [strip, lstrip]
    exact (List.dropWhile_sublist _).length_le
  have h2 : (rstrip s).length ≤ s.length := by
    rw [rstrip]
    calc ((s.reverse.dropWhile isSpace).reverse).length
        = (s.reverse.dropWhile isSpace).length := by rw [List.length_reverse]
      _ ≤ s.reverse.length := (List.dropWhile_sublist _).length_le
      _ = s.length := by rw [List.length_reverse]
  omega

theorem head?_eq_get_zero {α : Type} (l : List α) (h : 0 < l.length) :
    l.head? = some (l.get ⟨0, h⟩) := by
  cases l with
  | nil => simp at h
  | cons a t => rfl

theorem buildChunkSections_mem (fid : Nat) (heading : Str)
    (conf : ExtractionConfidence) :
    ∀ (chunks : List Str) (i sec_index : Nat) (s : SectionSchema),
      s ∈ (buildChunkSections fid heading conf chunks i sec_index).1 →
      ∃ j, ∃ hj : j < chunks.length,
        (s.content = chunks.get ⟨j, hj⟩ ∨
          (i + j = 0 ∧ heading ≠ [] ∧
            startsWith (chunks.get ⟨j, hj⟩) heading = true ∧
            lstrip ((chunks.get ⟨j, hj⟩).drop heading.length) ≠ [] ∧
            s.content = lstrip ((chunks.get ⟨j, hj⟩).drop heading.length))) := by
  intro chunks
  induction chunks with
  | nil =>
    intro i idx s hs
    rw [buildChunkSections] at hs
    simp at hs
  | cons ch rest ih =>
    intro i idx s hs
    rw [buildChunkSections] at hs
    by_cases hsem : is_semantic ch
    · rw [if_pos hsem] at hs
      simp only [List.mem_cons] at hs
      rcases hs with rfl | hm
      · refine ⟨0, by simp, ?_⟩
        simp only [List.get]
        by_cases hA : ((if i = 0 ∧ heading ≠ [] then heading else []) ≠ [] ∧
            startsWith ch (if i = 0 ∧ heading ≠ [] then heading else []) = true)
        · have hih : i = 0 ∧ heading ≠ [] := by
            by_contra hni
            rw [if_neg hni] at hA
            exact hA.1 rfl
          rw [if_pos hih] at hA ⊢
          rw [if_pos hA]
          by_cases hdn : lstrip (ch.drop heading.length) = []
          · left
            rw [if_pos hdn]
          · right
            exact ⟨by omega, hih.2, hA.2, hdn, by rw [if_neg hdn]⟩
        · left
          rw [if_neg hA]
          split <;> rfl
      · rcases ih (i + 1) (idx + 1) s hm with ⟨j, hj, hdisj⟩
        refine ⟨j + 1, by simpa using Nat.succ_lt_succ hj, ?_⟩
        rcases hdisj with hc | ⟨hij, hrest⟩
        · left
          simpa using hc
        · right
          refine ⟨by omega, ?_⟩
          simpa using hrest
    · rw [if_neg hsem] at hs
      rcases ih (i + 1) idx s hs with ⟨j, hj, hdisj⟩
      refine ⟨j + 1, by simpa using Nat.succ_lt_succ hj, ?_⟩
      rcases hdisj with hc | ⟨hij, hrest⟩
      · left
        simpa using hc
      · right
        refine ⟨by omega, ?_⟩
        simpa using hrest

end Atlas

namespace Atlas

/-- When the stripped heading is non-empty, the full text of a text
segment splits into paragraphs whose first piece is non-blank and no
longer than the heading. -/
theorem first_para_of_full_text (seg : Segment) (hh : strip seg.heading ≠ []) :
    ∃ p1 restP, pySplitParas (seg_full_text seg) = p1 :: restP ∧
      strip p1 ≠ [] ∧ p1.length ≤ (strip seg.heading).length := by
  rcases hhd : strip seg.heading with _ | ⟨hc, ht⟩
  · exact absurd hhd hh
  · have hcnw : isSpace hc = false := strip_head_nonws hhd
    have hEndH : endsNonWs (strip seg.heading) := endsNonWs_strip hh
    by_cases hc2 : strip seg.content = []
    · have hfull : seg_full_text seg = strip seg.heading := by
        rw [seg_full_text, if_pos (by rw [hhd]; simp), hc2]
        have h0 : strip seg.heading ++ '\n' :: '\n' :: ([] : Str) =
            strip seg.heading ++ ['\n', '\n'] := rfl
        rw [h0, strip_append_ws _ _ ws_nn, strip_idem]
      rcases splitParasAux_head_first_char hc ht [] hcnw with ⟨t, hhead⟩
      rcases hl : pySplitParas (seg_full_text seg) with _ | ⟨p1, restP⟩
      · exact absurd hl (by rw [hfull, hhd]; exact splitParasAux_ne_nil _ _ _)
      · have hl2 : splitParasAux (hc :: ht) [] [] = p1 :: restP := by
          rw [hfull, hhd, pySplitParas] at hl
          exact hl
        have hp1eq : p1 = [] ++ hc :: t := by
          rw [hl2] at hhead
          simp only [List.head?_cons, Option.some_inj] at hhead
          exact hhead
        refine ⟨p1, restP, rfl, ?_, ?_⟩
        · rw [hp1eq]
          simp only [List.nil_append]
          exact strip_cons_ne_nil hcnw t
        · have hp1 : (splitParasAux (hc :: ht) [] []).head? = some p1 := by
            rw [hl2]; rfl
          have hlen := splitParasAux_head_len (hc :: ht) [] [] p1 hp1
          simpa using hlen
    · rcases hcd : strip seg.content with _ | ⟨c0, c'⟩
      · exact absurd hcd hc2
      · have hc0nw : isSpace c0 = false := strip_head_nonws hcd
        have hfull : seg_full_text seg =
            strip seg.heading ++ '\n' :: '\n' :: strip seg.content := by
          rw [seg_full_text, if_pos (by rw [hhd]; simp)]
          apply strip_eq_self
          · have hEndC : endsNonWs (strip seg.content) := endsNonWs_strip hc2
            have h0 : strip seg.heading ++ '\n' :: '\n' :: strip seg.content =
                (strip seg.heading ++ ['\n', '\n']) ++ strip seg.content := by simp
            rw [h0]
            exact endsNonWs_append_left _ hEndC
          · intro c t hct
            rw [hhd] at hct
            simp only [List.cons_append, List.cons_eq_cons] at hct
            rw [← hct.1]
            exact hcnw
        have hconcat : pySplitParas (seg_full_text seg) =
            splitParasAux (strip seg.heading) [] [] ++
              splitParasAux (c0 :: c') [] [] := by
          rw [hfull, hcd, pySplitParas]
          exact splitParasAux_concat (strip seg.heading) hEndH c0 c' hc0nw [] []
        rcases splitParasAux_head_first_char hc ht [] hcnw with ⟨t, hhead⟩
        rcases hl : splitParasAux (strip seg.heading) [] [] with _ | ⟨p1, restH⟩
        · exact absurd hl (splitParasAux_ne_nil _ _ _)
        · have hp1eq : p1 = [] ++ hc :: t := by
            rw [hhd] at hl
            rw [hl] at hhead
            simp only [List.head?_cons, Option.some_inj] at hhead
            exact hhead
          refine ⟨p1, restH ++ splitParasAux (c0 :: c') [] [], ?_, ?_, ?_⟩
          · rw [hconcat, hl]
            rfl
          · rw [hp1eq]
            simp only [List.nil_append]
            exact strip_cons_ne_nil hcnw t
          · have hp1 : (splitParasAux (strip seg.heading) [] []).head? = some p1 := by
              rw [hl]; rfl
            have hlen := splitParasAux_head_len (strip seg.heading) [] [] p1 hp1
            rw [hhd] at hlen
            simpa using hlen

end Atlas

namespace Atlas

/-- Soundness of _split_text_segment: every produced section either has
content within the word budget, or its content is verbatim a single
stripped sentence of the segment full text that alone exceeds it. -/
theorem split_text_segment_sound (seg : Segment) (fid : Nat)
    (max_words soft_max_words sec_index : Nat) :
    ∀ s ∈ (split_text_segment seg fid max_words soft_max_words sec_index).1,
      countWords s.content ≤ max_words ∨
        ∃ p ∈ pySplitParas (seg_full_text seg), ∃ q ∈ pySplitSents (strip p),
          s.content = strip q ∧ max_words < countWords s.content := by
  intro s hs
  rw [split_text_segment] at hs
  by_cases h0 : strip seg.content = [] ∧ strip seg.heading = []
  · rw [if_pos h0] at hs
    simp at hs
  · rw [if_neg h0] at hs
    by_cases hwc : countWords (seg_full_text seg) ≤ max_words
    · rw [if_pos hwc] at hs
      by_cases hsem : ¬ is_semantic (seg_full_text seg)
      · rw [if_pos hsem] at hs
        simp at hs
      · rw [if_neg hsem] at hs
        simp only [List.mem_singleton] at hs
        subst hs
        left
        show countWords (if strip seg.content = [] then seg_full_text seg
          else strip seg.content) ≤ max_words
        by_cases hc : strip seg.content = []
        · rw [if_pos hc]
          exact hwc
        · rw [if_neg hc]
          have hbound : countWords (strip seg.content) ≤
              countWords (seg_full_text seg) := by
            rw [seg_full_text]
            by_cases hh : strip seg.heading = []
            · rw [if_neg (fun hne => hne hh)]
            · rw [if_pos hh,
                countWords_strip (strip seg.heading ++ '\n' :: '\n' :: strip seg.content)]
              have hsplit : strip seg.heading ++ '\n' :: '\n' :: strip seg.content =
                  (strip seg.heading ++ ['\n', '\n']) ++ strip seg.content := by
                simp
              rw [hsplit]
              exact countWords_append_le _ _
          exact le_trans hbound hwc
    · rw [if_neg hwc] at hs
      rcases buildChunkSections_mem fid (strip seg.heading) seg.extraction_confidence
          (semantic_split (seg_full_text seg) max_words soft_max_words)
          0 sec_index s hs with ⟨j, hj, hdisj⟩
      rcases hdisj with hc | ⟨hij, hhne, hsw, hdne, hceq⟩
      · have hmem : (semantic_split (seg_full_text seg) max_words
            soft_max_words).get ⟨j, hj⟩ ∈
            ssGo max_words soft_max_words (pySplitParas (seg_full_text seg)) [] 0 :=
          List.get_mem _ _ _
        rcases ssGo_sound max_words soft_max_words
            (pySplitParas (seg_full_text seg)) [] 0 (by simp) (Nat.zero_le _)
            _ hmem with h | ⟨p, hp, q, hq, he, hgt⟩
        · left
          rw [hc]
          exact h
        · right
          exact ⟨p, hp, q, hq, by rw [hc, he], by rw [hc]; exact hgt⟩
      · have hj0 : j = 0 := by omega
        subst hj0
        have hhead : (ssGo max_words soft_max_words
            (pySplitParas (seg_full_text seg)) [] 0).head? =
            some ((semantic_split (seg_full_text seg) max_words
              soft_max_words).get ⟨0, hj⟩) :=
          head?_eq_get_zero _ hj
        rcases ssGo_head_start max_words soft_max_words
            (pySplitParas (seg_full_text seg)) _ hhead with h | ⟨p, hfind, q, hq, hchq⟩
        · left
          rw [hceq, countWords_lstrip]
          exact le_trans (countWords_drop_le _ _) h
        · exfalso
          rcases first_para_of_full_text seg hhne with ⟨p1, restP, hparas, hp1ne, hp1len⟩
          have hpeq : p = p1 := by
            rw [hparas, List.find?_cons_of_pos _ (by simp [hp1ne])] at hfind
            exact (Option.some_inj.mp hfind).symm
          subst hpeq
          have hqlen : q.length ≤ (strip p).length := by
            rw [pySplitSents] at hq
            have := splitSentsAux_piece_len (strip p) [] false q hq
            simpa using this
          have htake : ((semantic_split (seg_full_text seg) max_words
              soft_max_words).get ⟨0, hj⟩).take (strip seg.heading).length =
              strip seg.heading := of_decide_eq_true hsw
          have hle1 : (strip seg.heading).length ≤
              ((semantic_split (seg_full_text seg) max_words
                soft_max_words).get ⟨0, hj⟩).length := by
            have hlt := congrArg List.length htake
            rw [List.length_take] at hlt
            omega
          have hle2 : ((semantic_split (seg_full_text seg) max_words
              soft_max_words).get ⟨0, hj⟩).length ≤ (strip seg.heading).length := by
            calc ((semantic_split (seg_full_text seg) max_words
                soft_max_words).get ⟨0, hj⟩).length
                = (strip q).length := by rw [hchq]
              _ ≤ q.length := strip_length_le q
              _ ≤ (strip p).length := hqlen
              _ ≤ p.length := strip_length_le p
              _ ≤ (strip seg.heading).length := hp1len
          have hlen_eq : ((semantic_split (seg_full_text seg) max_words
              soft_max_words).get ⟨0, hj⟩).length = (strip seg.heading).length :=
            le_antisymm hle2 hle1
          have hdrop : ((semantic_split (seg_full_text seg) max_words
              soft_max_words).get ⟨0, hj⟩).drop (strip seg.heading).length = [] := by
            rw [← hlen_eq, List.drop_length]
          rw [hdrop] at hdne
          exact hdne rfl

end Atlas

namespace Atlas

/-- The table/figure arm copies the segment's section type verbatim. -/
theorem tableFigureSections_type (seg : Segment) (fid k : Nat) :
    ∀ s ∈ (tableFigureSections seg fid k).1, s.section_type = seg.section_type := by
  intro s hs
  rw [tableFigureSections] at hs
  by_cases h : ¬ is_semantic seg.content
  · rw [if_pos h] at hs
    simp at hs
  · rw [if_neg h] at hs
    simp only [List.mem_singleton] at hs
    subst hs
    rfl

/-- Soundness of the candidate loop: every text-typed candidate section
has content within the word budget or is verbatim a single oversized
stripped sentence of some segment's full text. -/
theorem candidateSections_sound (fid mw smw : Nat) :
    ∀ (segments : List Segment) (idx : Nat),
      ∀ s ∈ candidateSections fid mw smw segments idx,
        s.section_type = SectionType.text →
        countWords s.content ≤ mw ∨
          ∃ seg ∈ segments, ∃ p ∈ pySplitParas (seg_full_text seg),
            ∃ q ∈ pySplitSents (strip p),
              s.content = strip q ∧ mw < countWords s.content := by
  intro segments
  induction segments with
  | nil =>
    intro idx s hs _
    rw [candidateSections] at hs
    simp at hs
  | cons seg rest ih =>
    intro idx s hs htext
    rw [candidateSections] at hs
    by_cases htype : seg.section_type = SectionType.table ∨
        seg.section_type = SectionType.figure
    · rw [if_pos htype] at hs
      rcases List.mem_append.mp hs with hleft | hright
      · have hty := tableFigureSections_type seg fid idx s hleft
        rw [htext] at hty
        rcases htype with h | h <;> rw [h] at hty <;> exact absurd hty.symm (by simp)
      · rcases ih _ s hright htext with h | ⟨sg, hsg, hrest⟩
        · exact Or.inl h
        · exact Or.inr ⟨sg, List.mem_cons_of_mem _ hsg, hrest⟩
    · rw [if_neg htype] at hs
      rcases List.mem_append.mp hs with hleft | hright
      · rcases split_text_segment_sound seg fid mw smw idx s hleft with h | ⟨p, hp, hq⟩
        · exact Or.inl h
        · exact Or.inr ⟨seg, List.mem_cons_self _ _, p, hp, hq⟩
      · rcases ih _ s hright htext with h | ⟨sg, hsg, hrest⟩
        · exact Or.inl h
        · exact Or.inr ⟨sg, List.mem_cons_of_mem _ hsg, hrest⟩

/-- C1: every text-typed section returned by chunk_to_sections has a
content word count of at most max_words, except a section whose content
is verbatim a single stripped sentence (of a paragraph of the full text
of one of the input segments) that alone exceeds max_words, emitted
unsplit. -/
theorem c1_text_section_word_bound (segments : List Segment) (file_id : Nat)
    (source : Source) (max_words soft_max_words : Nat) (s : SectionSchema)
    (hs : s ∈ (chunk_to_sections segments file_id source max_words soft_max_words).2)
    (htext : s.section_type = SectionType.text) :
    countWords s.content ≤ max_words ∨
      ∃ seg ∈ segments, ∃ p ∈ pySplitParas (seg_full_text seg),
        ∃ q ∈ pySplitSents (strip p),
          s.content = strip q ∧ max_words < countWords s.content := by
  have hcand : s ∈ candidateSections file_id max_words soft_max_words segments 0 :=
    (dedupSections_sublist (candidateSections file_id max_words soft_max_words
      segments 0) []).subset hs
  exact candidateSections_sound file_id max_words soft_max_words segments 0 s
    hcand htext

/-- Witness for C1: the 45-word text segment yields one text section
whose content meets the bound. -/
theorem c1_witness :
    c1SectionW ∈ (chunk_to_sections [textSegW] 7 srcW 600 300).2 ∧
      c1SectionW.section_type = SectionType.text ∧
      (countWords c1SectionW.content ≤ 600 ∨
        ∃ seg ∈ [textSegW], ∃ p ∈ pySplitParas (seg_full_text seg),
          ∃ q ∈ pySplitSents (strip p),
            c1SectionW.content = strip q ∧ 600 < countWords c1SectionW.content) :=
  ⟨by decide, by decide,
    c1_text_section_word_bound [textSegW] 7 srcW 600 300 c1SectionW (by decide)
      (by decide)⟩

end Atlas
